import Mathlib

/-!
Shallow embedding of the MindFlow layout engine and viewport logic.

Sources embedded here:
 * `src/MindFlowAPK/src/services/firebase.ts` — class `LayoutService`
   (`applyLayout`, `forceDirectedLayout`, `hierarchicalLayout`,
   `circularLayout`, `gridLayout`, `centerOnNode`).
 * `src/src/components/Canvas.tsx` — `visibleNodes`, `visibleConnections`,
   the world-to-screen transform in `renderConnections` and the
   screen-to-world transform in `onPanResponderMove`.

Modelling conventions:
 * JavaScript numbers are modelled as real numbers (`ℝ`); `Math.cos`,
   `Math.sin`, `Math.sqrt`, `Math.PI` become `Real.cos`, `Real.sin`,
   `Real.sqrt`, `Real.pi`.
 * A JavaScript object used as a dictionary (`{ [key: string]: T }`) is
   modelled as a function `String → Option T` when only lookups and
   keyed writes are performed on it, and as an insertion-ordered
   association list `List (String × T)` where `Object.values` is taken.
 * A JavaScript runtime crash (`TypeError` on an `undefined` access) is
   modelled by the value `none` of an `Option`-typed result.
 * The TS interfaces `Node` and `Connection` carry many presentational
   fields (`title`, `status`, …).  Only the fields that the embedded
   functions actually read are kept: `id` and `position` for nodes;
   `id`, `from`, `to`, `type` for connections.
-/

namespace MindFlow

/-- 2D point, TS interface `Position` (`src/MindFlowAPK/src/types/index.ts`). -/
@[ext]
structure Position where
  x : ℝ
  y : ℝ

/-- Graph vertex, TS interface `Node`; only the fields read by the embedded
code are kept (`id`, `position`). -/
@[ext]
structure Node where
  id : String
  position : Position

/-- Typed directed edge, TS interface `Connection`.  The `type` field is one
of the strings `"related" | "blocking" | "dependency"`; it is modelled as a
plain `String` because the code only compares it against `"dependency"`. -/
@[ext]
structure Connection where
  id : String
  «from» : String
  «to» : String
  type : String
  deriving DecidableEq

/-- Empty string-keyed dictionary (`{}` in the source). -/
def emptyMap {α : Type} : String → Option α := fun _ => none

/-- Keyed write into a string-keyed dictionary (`obj[k] = v`). -/
def upd {α : Type} (m : String → Option α) (k : String) (v : α) :
    String → Option α :=
  fun k' => if k' = k then some v else m k'

/-- JavaScript `x || d` applied to a possibly-absent numeric option field:
an absent (`undefined`) value and the value `0` are both falsy, so both
select the default `d`. -/
noncomputable def orD (o : Option ℝ) (d : ℝ) : ℝ :=
  match o with
  | none => d
  | some v => if v = 0 then d else v

/-- JavaScript `x || d` for the natural-number-valued `maxIterations`. -/
def orDN (o : Option ℕ) (d : ℕ) : ℕ :=
  match o with
  | none => d
  | some v => if v = 0 then d else v

/-! ### Viewport / culling (`src/src/components/Canvas.tsx`) -/

/-- Insertion-ordered dictionary of nodes, `currentMap.nodes`. -/
def NodesObj : Type := List (String × Node)

/-- `Object.values(nodes)`. -/
def objValues (m : List (String × Node)) : List Node := m.map Prod.snd

/-- `nodes[k]` on the node dictionary. -/
def objGet (m : List (String × Node)) (k : String) : Option Node :=
  (m.find? (fun p => p.1 = k)).map Prod.snd

/-- `visibleNodes` from `Canvas.tsx` lines 33–55: filter the node values by
the negated AABB-separation test against the buffered viewport rectangle
(`nodeSize = 120`, approximate node height `80`, `buffer = 200`). -/
noncomputable def visibleNodes (nodes : List (String × Node)) (pan : Position)
    (zoom screenWidth screenHeight : ℝ) : List Node :=
  let viewportLeft := -pan.x / zoom - 200
  let viewportTop := -pan.y / zoom - 200
  let viewportRight := (-pan.x + screenWidth) / zoom + 200
  let viewportBottom := (-pan.y + screenHeight) / zoom + 200
  (objValues nodes).filter (fun node =>
    ¬(node.position.x + 120 < viewportLeft ∨
      node.position.x > viewportRight ∨
      node.position.y + 80 < viewportTop ∨
      node.position.y > viewportBottom))

/-- `visibleConnections` from `Canvas.tsx` lines 58–68: keep a connection iff
both endpoint ids resolve in the node dictionary and both endpoints occur in
`visibleNodes`. -/
noncomputable def visibleConnections (nodes : List (String × Node))
    (connections : List Connection) (pan : Position)
    (zoom screenWidth screenHeight : ℝ) : List Connection :=
  connections.filter (fun c =>
    (objGet nodes c.«from»).isSome ∧ (objGet nodes c.«to»).isSome ∧
    (visibleNodes nodes pan zoom screenWidth screenHeight).any
      (fun n => n.id = c.«from») ∧
    (visibleNodes nodes pan zoom screenWidth screenHeight).any
      (fun n => n.id = c.«to»))

/-- World-to-screen transform from `renderConnections`
(`x1 = sourceNode.position.x * zoom + pan.x`, …). -/
def worldToScreen (p pan : Position) (zoom : ℝ) : Position :=
  ⟨p.x * zoom + pan.x, p.y * zoom + pan.y⟩

/-- Screen-to-world transform from `onPanResponderMove`
(`cursorX = (gestureState.x0 - pan.x) / zoom`, …). -/
noncomputable def screenToWorld (q pan : Position) (zoom : ℝ) : Position :=
  ⟨(q.x - pan.x) / zoom, (q.y - pan.y) / zoom⟩

/-- Axis-aligned rectangle given by its boundary coordinates. -/
structure Rect where
  left : ℝ
  top : ℝ
  right : ℝ
  bottom : ℝ

/-- The buffered world-space viewport rectangle of `visibleNodes`. -/
noncomputable def viewportRect (pan : Position)
    (zoom screenWidth screenHeight : ℝ) : Rect :=
  ⟨-pan.x / zoom - 200, -pan.y / zoom - 200,
   (-pan.x + screenWidth) / zoom + 200,
   (-pan.y + screenHeight) / zoom + 200⟩

/-- Logical bounding box of a node: its position plus the fixed
`120 × 80` footprint. -/
def nodeRect (n : Node) : Rect :=
  ⟨n.position.x, n.position.y, n.position.x + 120, n.position.y + 80⟩

/-- Standard boundary-inclusive AABB overlap between two rectangles. -/
def rectsIntersect (a b : Rect) : Prop :=
  b.left ≤ a.right ∧ a.left ≤ b.right ∧ b.top ≤ a.bottom ∧ a.top ≤ b.bottom

/-! ### Layout engine (`src/MindFlowAPK/src/services/firebase.ts`, class
`LayoutService`) -/

/-- TS union type `LayoutAlgorithm`. -/
inductive LayoutAlgorithm where
  | forceDirected
  | hierarchical
  | circular
  | grid

/-- TS interface `LayoutOptions`; the optional numeric fields are `Option`s
(`none` = the field is absent / `undefined`). -/
structure LayoutOptions where
  algorithm : LayoutAlgorithm
  spacing : Option ℝ
  centerX : Option ℝ
  centerY : Option ℝ
  maxIterations : Option ℕ
  attractionForce : Option ℝ
  repulsionForce : Option ℝ

/-- Shared shape of the `nodes.forEach((node, index) => positions[node.id]
= f(index))` loops of `circularLayout` and `gridLayout`. -/
def assignIdx (f : ℕ → Position) :
    List Node → ℕ → (String → Option Position) → (String → Option Position)
  | [], _, pos => pos
  | n :: rest, index, pos => assignIdx f rest (index + 1) (upd pos n.id (f index))

/-- `circularLayout` (`firebase.ts` lines 488–503): node `index` goes to
angle `(index / N) * 2 * π` on the circle of radius `spacing` (default 200)
around the configured center.  Connections are not an input. -/
noncomputable def circularLayout (nodes : List Node) (options : LayoutOptions) :
    String → Option Position :=
  let radius := orD options.spacing 200
  let centerX := orD options.centerX 0
  let centerY := orD options.centerY 0
  assignIdx (fun index =>
      ⟨centerX + Real.cos ((index : ℝ) / nodes.length * 2 * Real.pi) * radius,
       centerY + Real.sin ((index : ℝ) / nodes.length * 2 * Real.pi) * radius⟩)
    nodes 0 emptyMap

/-- `Math.ceil(Math.sqrt(n))` for a natural `n` (`Nat.sqrt` is the floor of
the square root). -/
def natCeilSqrt (n : ℕ) : ℕ :=
  if Nat.sqrt n * Nat.sqrt n = n then Nat.sqrt n else Nat.sqrt n + 1

/-- `gridLayout` (`firebase.ts` lines 509–533): row-major grid with
`cols = ceil(sqrt N)` columns, `row = floor(index / cols)`,
`col = index % cols`, centered as a block on the configured center.
`rows = Math.ceil(N / cols)` is `(N + cols - 1) / cols` in `ℕ`; for `N = 0`
the JS value is `NaN` but the returned mapping is empty either way, so the
divergence is unobservable. -/
noncomputable def gridLayout (nodes : List Node) (options : LayoutOptions) :
    String → Option Position :=
  let spacing := orD options.spacing 150
  let centerX := orD options.centerX 0
  let centerY := orD options.centerY 0
  let cols := natCeilSqrt nodes.length
  let rows := (nodes.length + cols - 1) / cols
  let totalWidth := ((cols : ℝ) - 1) * spacing
  let totalHeight := ((rows : ℝ) - 1) * spacing
  let startX := centerX - totalWidth / 2
  let startY := centerY - totalHeight / 2
  assignIdx (fun index =>
      ⟨startX + ((index % cols : ℕ) : ℝ) * spacing,
       startY + ((index / cols : ℕ) : ℝ) * spacing⟩)
    nodes 0 emptyMap

/-! ### Force-directed layout (`firebase.ts` lines 335–412) -/

/-- Seeding loop of `forceDirectedLayout`: place node `index` on the circle
of radius 200 at angle `(index / N) * 2π`.  The source guard
`if (!positions[node.id])` is `(pos n.id).isSome` — on the fresh dictionary
it only fires when an earlier node carried the same id. -/
noncomputable def seedAssign (N : ℕ) :
    List Node → ℕ → (String → Option Position) → (String → Option Position)
  | [], _, pos => pos
  | n :: rest, index, pos =>
    seedAssign N rest (index + 1)
      (if (pos n.id).isSome then pos
       else upd pos n.id
         ⟨Real.cos ((index : ℝ) / N * 2 * Real.pi) * 200,
          Real.sin ((index : ℝ) / N * 2 * Real.pi) * 200⟩)

/-- Initial positions of `forceDirectedLayout`. -/
noncomputable def seedPositions (nodes : List Node) : String → Option Position :=
  seedAssign nodes.length nodes 0 emptyMap

/-- JavaScript `Math.sqrt(dx*dx + dy*dy) || 1`: a zero distance is replaced
by 1 (the "minimum-distance floor"). -/
noncomputable def distOr1 (dx dy : ℝ) : ℝ :=
  if Real.sqrt (dx * dx + dy * dy) = 0 then 1 else Real.sqrt (dx * dx + dy * dy)

/-- Repulsion part of the per-node force (inner `nodes.forEach`): Coulomb
repulsion `repulsionForce / distance²` from every other node.  The
`.getD ⟨0, 0⟩` reads are unreachable once every node has been seeded (the
JS code would throw on the corresponding `undefined` access). -/
noncomputable def repelStep (repulsionForce : ℝ)
    (pos : String → Option Position) (node : Node) :
    List Node → ℝ × ℝ → ℝ × ℝ
  | [], f => f
  | other :: rest, f =>
    repelStep repulsionForce pos node rest
      (if node.id = other.id then f
       else
         let p := (pos node.id).getD ⟨0, 0⟩
         let q := (pos other.id).getD ⟨0, 0⟩
         let dx := q.x - p.x
         let dy := q.y - p.y
         let distance := distOr1 dx dy
         let repulsion := repulsionForce / (distance * distance)
         (f.1 - dx / distance * repulsion, f.2 - dy / distance * repulsion))

/-- Attraction part of the per-node force (`connections.forEach`): for every
connection touching the node whose opposite endpoint is found in `nodes`,
add `Δ * attractionForce`.  Both branches fire for a self-loop, as in the
source. -/
noncomputable def attractStep (attractionForce : ℝ) (nodes : List Node)
    (pos : String → Option Position) (node : Node) :
    List Connection → ℝ × ℝ → ℝ × ℝ
  | [], f => f
  | c :: rest, f =>
    let f₁ :=
      if c.«from» = node.id then
        match nodes.find? (fun n => n.id = c.«to») with
        | some targetNode =>
          let p := (pos node.id).getD ⟨0, 0⟩
          let q := (pos targetNode.id).getD ⟨0, 0⟩
          (f.1 + (q.x - p.x) * attractionForce,
           f.2 + (q.y - p.y) * attractionForce)
        | none => f
      else f
    let f₂ :=
      if c.«to» = node.id then
        match nodes.find? (fun n => n.id = c.«from») with
        | some sourceNode =>
          let p := (pos node.id).getD ⟨0, 0⟩
          let q := (pos sourceNode.id).getD ⟨0, 0⟩
          (f₁.1 + (q.x - p.x) * attractionForce,
           f₁.2 + (q.y - p.y) * attractionForce)
        | none => f₁
      else f₁
    attractStep attractionForce nodes pos node rest f₂

/-- Total force on one node for the current iteration, computed from the
positions snapshot `pos`. -/
noncomputable def forceOn (nodes : List Node) (connections : List Connection)
    (attractionForce repulsionForce : ℝ) (pos : String → Option Position)
    (node : Node) : ℝ × ℝ :=
  attractStep attractionForce nodes pos node connections
    (repelStep repulsionForce pos node nodes (0, 0))

/-- Position-update loop of one force-directed iteration
(`positions[node.id].x += forces[node.id].x * damping` with
`damping = 0.9`); forces are read from the snapshot `pos`.  The `none`
branch is unreachable when every node has been seeded (JS would throw). -/
noncomputable def moveNodes (nodes : List Node) (connections : List Connection)
    (attractionForce repulsionForce : ℝ) (pos : String → Option Position) :
    List Node → (String → Option Position) → (String → Option Position)
  | [], p => p
  | n :: rest, p =>
    moveNodes nodes connections attractionForce repulsionForce pos rest
      (match p n.id with
       | some q =>
         upd p n.id ⟨q.x + (forceOn nodes connections attractionForce
                       repulsionForce pos n).1 * 0.9,
                     q.y + (forceOn nodes connections attractionForce
                       repulsionForce pos n).2 * 0.9⟩
       | none => p)

/-- One iteration of the force-directed loop. -/
noncomputable def forceStep (nodes : List Node) (connections : List Connection)
    (attractionForce repulsionForce : ℝ) (pos : String → Option Position) :
    String → Option Position :=
  moveNodes nodes connections attractionForce repulsionForce pos nodes pos

/-- `forceDirectedLayout` (`firebase.ts` lines 335–412): seed, then run the
relaxation step `maxIterations` times (defaults via `||`: iterations 100,
attraction 0.01, repulsion 1000; the `spacing` binding in the source is
never read and is omitted). -/
noncomputable def forceDirectedLayout (nodes : List Node)
    (connections : List Connection) (options : LayoutOptions) :
    String → Option Position :=
  let maxIterations := orDN options.maxIterations 100
  let attractionForce := orD options.attractionForce 0.01
  let repulsionForce := orD options.repulsionForce 1000
  (forceStep nodes connections attractionForce repulsionForce)^[maxIterations]
    (seedPositions nodes)

/-- Two-node symmetric state used to evaluate `forceDirectedLayout` on the
concrete input of the `maxIterations = 0` analysis: node `"A"` at `(a, 0)`,
node `"B"` at `(-a, 0)`. -/
noncomputable def twoNodeState (a : ℝ) : String → Option Position :=
  fun k => if k = "A" then some ⟨a, 0⟩
           else if k = "B" then some ⟨-a, 0⟩ else none

/-- Concrete node `"A"` (payload position is irrelevant to the layouts). -/
noncomputable def nodeA : Node := ⟨"A", ⟨0, 0⟩⟩

/-- Concrete node `"B"`. -/
noncomputable def nodeB : Node := ⟨"B", ⟨0, 0⟩⟩

/-- Concrete node whose id is the empty string — a legal dictionary key in
JS, but falsy as a string. -/
noncomputable def nodeEmptyId : Node := ⟨"", ⟨0, 0⟩⟩

/-- Layout options selecting force-directed with explicit `maxIterations = 0`
and every other numeric option absent. -/
def optsMaxIterZero : LayoutOptions :=
  ⟨LayoutAlgorithm.forceDirected, none, none, none, some 0, none, none⟩

/-! ### Center-on-node radial BFS (`firebase.ts` lines 539–587) -/

/-- Mutable state of the `centerOnNode` traversal: the `visited` set (as an
insertion-ordered list — every insertion is guarded by a membership test, so
list and set semantics agree), the positions dictionary, and the queue of
newly discovered ids (the stored `level`/`angle` fields of the JS queue
entries are never read and are dropped). -/
structure BfsState where
  visited : List String
  pos : String → Option Position
  queue : List String

/-- Placement of a newly discovered node `nid` inside `centerOnNode`: put it
on the circle of the current `radius` at angle
`(visited.size / max(6, levelSize*2)) * 2π`, mark it visited, enqueue it. -/
noncomputable def addDiscovered (radius : ℝ) (levelSize : ℕ) (nid : String)
    (s : BfsState) : BfsState :=
  ⟨s.visited ++ [nid],
   upd s.pos nid
     ⟨Real.cos ((s.visited.length : ℝ) /
          ((max 6 (levelSize * 2) : ℕ) : ℝ) * 2 * Real.pi) * radius,
      Real.sin ((s.visited.length : ℝ) /
          ((max 6 (levelSize * 2) : ℕ) : ℝ) * 2 * Real.pi) * radius⟩,
   s.queue ++ [nid]⟩

/-- Body of the `connections.forEach` inside `centerOnNode` for one
connection `c` while processing queue entry `qid`.  The JS first computes
`nextNodeId` (the unvisited opposite endpoint, if any, else `null`) and then
guards on `nextNodeId && nodes[nextNodeId]`: the left conjunct is string
truthiness, so it fails both for `null` (no opposite endpoint was selected)
and for the empty string, which is falsy in JS.  This is rendered as nested
conditionals whose inner guard therefore also requires the discovered id to
be nonempty. -/
noncomputable def discoverStep (nodes : List (String × Node)) (radius : ℝ)
    (levelSize : ℕ) (qid : String) (c : Connection) (s : BfsState) :
    BfsState :=
  if c.«from» = qid ∧ c.«to» ∉ s.visited then
    (if c.«to» ≠ "" ∧ (objGet nodes c.«to»).isSome then
      addDiscovered radius levelSize c.«to» s
     else s)
  else if c.«to» = qid ∧ c.«from» ∉ s.visited then
    (if c.«from» ≠ "" ∧ (objGet nodes c.«from»).isSome then
      addDiscovered radius levelSize c.«from» s
     else s)
  else s

/-- `connections.forEach` for one queue entry. -/
noncomputable def discover (nodes : List (String × Node)) (radius : ℝ)
    (levelSize : ℕ) (qid : String) : List Connection → BfsState → BfsState
  | [], s => s
  | c :: rest, s =>
    discover nodes radius levelSize qid rest
      (discoverStep nodes radius levelSize qid c s)

/-- The `for (let i = 0; i < levelSize; i++)` loop: process every entry of
the current queue in order. -/
noncomputable def processBatch (nodes : List (String × Node)) (radius : ℝ)
    (levelSize : ℕ) (conns : List Connection) :
    List String → BfsState → BfsState
  | [], s => s
  | qid :: qrest, s =>
    processBatch nodes radius levelSize conns qrest
      (discover nodes radius levelSize qid conns s)

/-- The `while (queue.length > 0)` loop of `centerOnNode`, with `radius =
(level + 1) * 150` per round.  `fuel` bounds the number of rounds; every
discovered node is freshly visited, so `nodes.length + 2` rounds always
suffice and the fuel-exhausted branch is unreachable from `centerOnNode`. -/
noncomputable def bfsLoop (nodes : List (String × Node))
    (conns : List Connection) :
    ℕ → List String → List String → (String → Option Position) → ℕ →
      (String → Option Position)
  | 0, _, _, pos, _ => pos
  | fuel + 1, queue, visited, pos, level =>
    if queue.isEmpty then pos
    else
      let s := processBatch nodes (((level + 1 : ℕ) : ℝ) * 150) queue.length
        conns queue ⟨visited, pos, []⟩
      bfsLoop nodes conns fuel s.queue s.visited s.pos (level + 1)

/-- `centerOnNode` (`firebase.ts` lines 539–587): radial BFS placement
around `centerNodeId`, which is placed at the origin; a missing center id
returns the empty mapping. -/
noncomputable def centerOnNode (nodes : List (String × Node))
    (centerNodeId : String) (connections : List Connection) :
    String → Option Position :=
  if (objGet nodes centerNodeId).isSome then
    bfsLoop nodes connections (nodes.length + 2) [centerNodeId]
      [centerNodeId] (upd emptyMap centerNodeId ⟨0, 0⟩) 0
  else emptyMap

/-- Relation between BFS states across one traversal stage at a fixed
`radius`: the visited set only grows, positions of already-visited ids are
unchanged, and every newly visited id has been placed at distance `radius`
from the origin. -/
def BfsExtends (radius : ℝ) (s s' : BfsState) : Prop :=
  (∀ x ∈ s.visited, x ∈ s'.visited) ∧
  (∀ id ∈ s.visited, s'.pos id = s.pos id) ∧
  (∀ id, id ∉ s.visited → id ∈ s'.visited →
    ∃ p, s'.pos id = some p ∧ Real.sqrt (p.x ^ 2 + p.y ^ 2) = radius)

/-! ### Hierarchical layout (`firebase.ts` lines 418–482) -/

/-- Initialization `graph[node.id] = []` for every node. -/
def initGraph (nodes : List Node) : String → Option (List String) :=
  nodes.foldl (fun g n => upd g n.id []) emptyMap

/-- Initialization `inDegree[node.id] = 0` for every node. -/
def initInDeg (nodes : List Node) : String → Option Int :=
  nodes.foldl (fun d n => upd d n.id 0) emptyMap

/-- The `connections.forEach` of `hierarchicalLayout`: for every
`"dependency"` connection, `graph[conn.from].push(conn.to)` and
`inDegree[conn.to] = (inDegree[conn.to] || 0) + 1`.  When `conn.from` is not
a key of `graph`, the JS `.push` on `undefined` throws a `TypeError`,
modelled by `none`. -/
def addDeps : List Connection → (String → Option (List String)) →
    (String → Option Int) →
    Option ((String → Option (List String)) × (String → Option Int))
  | [], g, d => some (g, d)
  | c :: rest, g, d =>
    if c.type = "dependency" then
      match g c.«from» with
      | none => none
      | some l =>
        addDeps rest (upd g c.«from» (l ++ [c.«to»]))
          (upd d c.«to» ((d c.«to»).getD 0 + 1))
    else addDeps rest g d

/-- The `graph[node.id].forEach(targetId => ...)` of the level loop:
decrement `inDegree[targetId]` and, when it reaches exactly 0, push
`nodes.find(n => n.id === targetId)` onto the next level (an absent target
yields `undefined`, i.e. `none`, in the JS array).  A target id absent from
`inDegree` would become `NaN` in JS and never compare `=== 0`; this is
modelled by leaving the entry untouched, which is observably the same (the
branch is unreachable from `hierarchicalLayout`: every pushed target was
given an entry by `addDeps`). -/
def procTargets (nodes : List Node) :
    List String → (String → Option Int) → List (Option Node) →
    (String → Option Int) × List (Option Node)
  | [], d, next => (d, next)
  | t :: ts, d, next =>
    match d t with
    | none => procTargets nodes ts d next
    | some v =>
      if v - 1 = 0 then
        procTargets nodes ts (upd d t (v - 1))
          (next ++ [nodes.find? (fun n => n.id = t)])
      else procTargets nodes ts (upd d t (v - 1)) next

/-- The `currentLevel.forEach(node => ...)`: a `none` entry (an `undefined`
pushed by a dangling target) makes JS throw on `node.id`; a node id missing
from `graph` makes JS throw on `.forEach` of `undefined` (unreachable for
nodes drawn from the input list). -/
def procLevel (nodes : List Node) (graph : String → Option (List String)) :
    List (Option Node) → (String → Option Int) → List (Option Node) →
    Option ((String → Option Int) × List (Option Node))
  | [], d, next => some (d, next)
  | none :: _, _, _ => none
  | some n :: rest, d, next =>
    match graph n.id with
    | none => none
    | some ts =>
      procLevel nodes graph rest (procTargets nodes ts d next).1
        (procTargets nodes ts d next).2

/-- The `while (currentLevel.length > 0)` loop: append the current level to
`levels`, then compute the next level.  `fuel` bounds the rounds; each
pushed node reaches in-degree 0 exactly once, so
`nodes.length + connections.length + 1` rounds always suffice and the
fuel-exhausted `none` is unreachable from `hierarchicalLayout`. -/
def levelsLoop (nodes : List Node) (graph : String → Option (List String)) :
    ℕ → (String → Option Int) → List (Option Node) →
    List (List (Option Node)) → Option (List (List (Option Node)))
  | 0, _, current, acc => if current.isEmpty then some acc else none
  | fuel + 1, d, current, acc =>
    if current.isEmpty then some acc
    else
      match procLevel nodes graph current d [] with
      | none => none
      | some (d', next) => levelsLoop nodes graph fuel d' next (acc ++ [current])

/-- Position assignment for one level: `positions[node.id] = { x: startX +
nodeIndex * spacing, y: centerY + levelIndex * spacing }`. -/
noncomputable def assignLevel (spacing startX cY : ℝ) (li : ℕ) :
    List (Option Node) → ℕ → (String → Option Position) →
    Option (String → Option Position)
  | [], _, pos => some pos
  | none :: _, _, _ => none
  | some n :: rest, ni, pos =>
    assignLevel spacing startX cY li rest (ni + 1)
      (upd pos n.id ⟨startX + (ni : ℝ) * spacing, cY + (li : ℝ) * spacing⟩)

/-- The `levels.forEach((levelNodes, levelIndex) => ...)` position pass, with
`levelWidth = levelNodes.length * spacing` and
`startX = centerX - levelWidth / 2`. -/
noncomputable def assignLevels (spacing cX cY : ℝ) :
    List (List (Option Node)) → ℕ → (String → Option Position) →
    Option (String → Option Position)
  | [], _, pos => some pos
  | lvl :: rest, li, pos =>
    match assignLevel spacing (cX - ((lvl.length : ℝ) * spacing) / 2) cY li
        lvl 0 pos with
    | none => none
    | some pos' => assignLevels spacing cX cY rest (li + 1) pos'

/-- `hierarchicalLayout` (`firebase.ts` lines 418–482): Kahn-style layering
over the `"dependency"` subgraph, then per-level placement.  `none` models a
JS `TypeError` (dangling `from` endpoint of a dependency edge, or an
`undefined` pushed into a level by a dangling `to` endpoint). -/
noncomputable def hierarchicalLayout (nodes : List Node)
    (conns : List Connection) (options : LayoutOptions) :
    Option (String → Option Position) :=
  match addDeps conns (initGraph nodes) (initInDeg nodes) with
  | none => none
  | some (g, d) =>
    match levelsLoop nodes g (nodes.length + conns.length + 1) d
        ((nodes.filter (fun n => d n.id = some 0)).map some) [] with
    | none => none
    | some levels =>
      assignLevels (orD options.spacing 200) (orD options.centerX 0)
        (orD options.centerY 0) levels 0 emptyMap

/-- `applyLayout` (`firebase.ts` lines 310–329): take `Object.values` of the
node dictionary, return `{}` for an empty list, and dispatch on the
algorithm.  The result is `Option`-typed because `hierarchicalLayout` can
throw. -/
noncomputable def applyLayout (nodes : List (String × Node))
    (connections : List Connection) (options : LayoutOptions) :
    Option (String → Option Position) :=
  if (objValues nodes).length = 0 then some emptyMap
  else
    match options.algorithm with
    | LayoutAlgorithm.forceDirected =>
      some (forceDirectedLayout (objValues nodes) connections options)
    | LayoutAlgorithm.hierarchical =>
      hierarchicalLayout (objValues nodes) connections options
    | LayoutAlgorithm.circular =>
      some (circularLayout (objValues nodes) options)
    | LayoutAlgorithm.grid =>
      some (gridLayout (objValues nodes) options)

/-- Map the explicit value 0 of a numeric option field to the absent value
(both are falsy in `x || d`). -/
noncomputable def zeroToNone (o : Option ℝ) : Option ℝ :=
  match o with
  | none => none
  | some v => if v = 0 then none else some v

/-- `zeroToNone` for the natural-valued `maxIterations`. -/
def zeroToNoneN (o : Option ℕ) : Option ℕ :=
  match o with
  | none => none
  | some v => if v = 0 then none else some v

/-- Canonical form of layout options: every numeric field holding the
explicit value 0 is replaced by the absent value. -/
noncomputable def canonOpts (o : LayoutOptions) : LayoutOptions :=
  ⟨o.algorithm, zeroToNone o.spacing, zeroToNone o.centerX,
   zeroToNone o.centerY, zeroToNoneN o.maxIterations,
   zeroToNone o.attractionForce, zeroToNone o.repulsionForce⟩

/-- Default hierarchical options (all numeric fields absent). -/
def optsHierDefault : LayoutOptions :=
  ⟨LayoutAlgorithm.hierarchical, none, none, none, none, none, none⟩

/-! ### Counting infrastructure for the hierarchical layering proof (C4) -/

/-- Ids of the `some` entries of a level. -/
def optIds (l : List (Option Node)) : List String :=
  l.filterMap (fun o => o.map Node.id)

/-- Ids of all `some` entries of a list of levels, in order. -/
def flatIds (acc : List (List (Option Node))) : List String :=
  (acc.map optIds).flatten

/-- Targets of the dependency edges out of `u`, in connection order — the
final value of `graph[u]` built by `addDeps`. -/
def depsOf (conns : List Connection) (u : String) : List String :=
  (conns.filter (fun c => c.type = "dependency" ∧ c.«from» = u)).map
    (fun c => c.«to»)

/-- Number of dependency edges into `v` — the final value of `inDegree[v]`
built by `addDeps`. -/
def depTo (conns : List Connection) (v : String) : ℕ :=
  (conns.filter (fun c => c.type = "dependency" ∧ c.«to» = v)).length

/-- Number of dependency edges into `v` whose source is not in `done`. -/
def remCnt (conns : List Connection) (done : List String) (v : String) : ℕ :=
  (conns.filter
    (fun c => c.type = "dependency" ∧ c.«to» = v ∧ c.«from» ∉ done)).length

/-- Number of dependency edges `u → v`. -/
def cntFromTo (conns : List Connection) (u v : String) : ℕ :=
  (conns.filter
    (fun c => c.type = "dependency" ∧ c.«from» = u ∧ c.«to» = v)).length

/-- Invariant of the Kahn-style level loop, stated at loop entry (before
the current level is appended to `acc`): every real id's in-degree entry
counts the dependency edges from unprocessed sources; all queued ids are
distinct; every node of the current level has all its dependency sources
processed; every node of level `j` of `acc` has all its dependency sources
in levels `< j`. -/
def LoopInv (nodes : List Node) (conns : List Connection)
    (d : String → Option Int) (current : List (Option Node))
    (acc : List (List (Option Node))) : Prop :=
  (∀ v ∈ nodes.map Node.id, d v = some ((remCnt conns (flatIds acc) v : ℤ))) ∧
  ((flatIds acc ++ optIds current).Nodup) ∧
  (∀ o ∈ current, ∀ n : Node, o = some n →
    n ∈ nodes ∧ remCnt conns (flatIds acc) n.id = 0) ∧
  (∀ j lvl, acc.get? j = some lvl → ∀ o ∈ lvl, ∀ n : Node, o = some n →
    n ∈ nodes ∧ remCnt conns (flatIds (acc.take j)) n.id = 0)

/-- Invariant of the inner per-level processing, at fixed `done` (ids of the
processed levels) and `cs` (ids of the whole current level): every queued id
keeps a non-positive in-degree entry, and the accumulated next level holds
distinct, real, not-yet-queued nodes with non-positive entries (interleaved
with `none` placeholders for dangling targets). -/
def BatchInv (nodes : List Node) (done cs : List String)
    (d : String → Option Int) (next : List (Option Node)) : Prop :=
  (∀ v ∈ done ++ cs, ∃ k : ℤ, k ≤ 0 ∧ d v = some k) ∧
  (∀ o ∈ next, ∀ n : Node, o = some n →
    n ∈ nodes ∧ ∃ k : ℤ, k ≤ 0 ∧ d n.id = some k) ∧
  (optIds next).Nodup ∧
  (∀ i ∈ optIds next, i ∉ done ++ cs)

/-- Final property of the computed levels: all placed ids are distinct, and
every node of level `j` has all its dependency sources in levels `< j`. -/
def LevelsSpec (nodes : List Node) (conns : List Connection)
    (levels : List (List (Option Node))) : Prop :=
  (flatIds levels).Nodup ∧
  (∀ j lvl, levels.get? j = some lvl → ∀ o ∈ lvl, ∀ n : Node, o = some n →
    n ∈ nodes ∧ remCnt conns (flatIds (levels.take j)) n.id = 0)

end MindFlow

namespace MindFlow

/-- C6: composing the stateless transforms is the identity for `zoom > 0`. -/
theorem screenToWorld_worldToScreen (p pan : Position) (zoom : ℝ)
    (hz : 0 < zoom) :
    screenToWorld (worldToScreen p pan zoom) pan zoom = p := by
  ext <;> · simp only [worldToScreen, screenToWorld]
            field_simp

/-- Witness for C6 at a concrete point, pan and zoom. -/
theorem screenToWorld_worldToScreen_witness :
    (0:ℝ) < 2 ∧
      screenToWorld (worldToScreen ⟨3, -5⟩ ⟨7, 11⟩ 2) ⟨7, 11⟩ 2 = ⟨3, -5⟩ :=
  ⟨by norm_num, screenToWorld_worldToScreen ⟨3, -5⟩ ⟨7, 11⟩ 2 (by norm_num)⟩

/-- C5: for `zoom > 0`, a node is in `visibleNodes` iff it is one of the
input node values and its bounding box intersects (boundary-inclusively) the
buffered viewport rectangle. -/
theorem visibleNodes_iff (nodes : List (String × Node)) (pan : Position)
    (zoom screenWidth screenHeight : ℝ) (hz : 0 < zoom) (n : Node) :
    n ∈ visibleNodes nodes pan zoom screenWidth screenHeight ↔
      n ∈ objValues nodes ∧
        rectsIntersect (nodeRect n)
          (viewportRect pan zoom screenWidth screenHeight) := by
  simp only [visibleNodes, List.mem_filter, rectsIntersect, nodeRect,
    viewportRect, decide_eq_true_eq]
  constructor
  · rintro ⟨hmem, hpred⟩
    push_neg at hpred
    exact ⟨hmem, by constructor <;> [linarith [hpred.1]; exact
      ⟨by linarith [hpred.2.1], by linarith [hpred.2.2.1],
       by linarith [hpred.2.2.2]⟩]⟩
  · rintro ⟨hmem, h1, h2, h3, h4⟩
    refine ⟨hmem, ?_⟩
    push_neg
    exact ⟨by linarith, by linarith, by linarith, by linarith⟩

/-- Witness for C5: a node at the origin with the identity camera on a
800 × 600 screen is visible. -/
theorem visibleNodes_iff_witness :
    (0:ℝ) < 1 ∧
      (⟨"A", ⟨0, 0⟩⟩ ∈
          visibleNodes [("A", ⟨"A", ⟨0, 0⟩⟩)] ⟨0, 0⟩ 1 800 600 ↔
        ⟨"A", ⟨0, 0⟩⟩ ∈ objValues [("A", ⟨"A", ⟨0, 0⟩⟩)] ∧
          rectsIntersect (nodeRect ⟨"A", ⟨0, 0⟩⟩)
            (viewportRect ⟨0, 0⟩ 1 800 600)) :=
  ⟨by norm_num,
   visibleNodes_iff [("A", ⟨"A", ⟨0, 0⟩⟩)] ⟨0, 0⟩ 1 800 600 (by norm_num) _⟩

/-- C9: when every dictionary entry stores a node carrying that entry's key
as its id, a connection is visible iff both of its endpoints are
individually in the visible node set. -/
theorem visibleConnections_iff (nodes : List (String × Node))
    (connections : List Connection) (pan : Position)
    (zoom screenWidth screenHeight : ℝ)
    (hwf : ∀ p ∈ nodes, (Prod.snd p).id = p.1) (c : Connection) :
    c ∈ visibleConnections nodes connections pan zoom screenWidth
        screenHeight ↔
      c ∈ connections ∧
        (∃ n ∈ visibleNodes nodes pan zoom screenWidth screenHeight,
          n.id = c.«from») ∧
        (∃ n ∈ visibleNodes nodes pan zoom screenWidth screenHeight,
          n.id = c.«to») := by
  have hvals : ∀ {k : String} {n : Node},
      n ∈ visibleNodes nodes pan zoom screenWidth screenHeight → n.id = k →
        (objGet nodes k).isSome := by
    intro k n hn hid
    have hmem : n ∈ objValues nodes := by
      have := (List.mem_filter.mp hn).1
      exact this
    obtain ⟨p, hp, hpn⟩ := List.mem_map.mp hmem
    have hkey : p.1 = k := by
      have := hwf p hp
      rw [hpn] at this
      rw [← hid, ← this]
    cases hfind : nodes.find? (fun q => q.1 = k) with
    | none =>
      exfalso
      have := List.find?_eq_none.mp hfind p hp
      simp [hkey] at this
    | some q => simp [objGet, hfind]
  simp only [visibleConnections, List.mem_filter, List.any_eq_true,
    decide_eq_true_eq]
  constructor
  · rintro ⟨hc, _, _, ⟨n₁, hn₁, hid₁⟩, ⟨n₂, hn₂, hid₂⟩⟩
    exact ⟨hc, ⟨n₁, hn₁, hid₁⟩, ⟨n₂, hn₂, hid₂⟩⟩
  · rintro ⟨hc, ⟨n₁, hn₁, hid₁⟩, ⟨n₂, hn₂, hid₂⟩⟩
    exact ⟨hc, hvals hn₁ hid₁, hvals hn₂ hid₂, ⟨n₁, hn₁, hid₁⟩,
      ⟨n₂, hn₂, hid₂⟩⟩

/-- Witness for C9 with one visible node and one self-loop connection. -/
theorem visibleConnections_iff_witness :
    (∀ p ∈ [("A", (⟨"A", ⟨0, 0⟩⟩ : Node))], (Prod.snd p).id = p.1) ∧
      (⟨"c", "A", "A", "related"⟩ ∈
          visibleConnections [("A", ⟨"A", ⟨0, 0⟩⟩)]
            [⟨"c", "A", "A", "related"⟩] ⟨0, 0⟩ 1 800 600 ↔
        (⟨"c", "A", "A", "related"⟩ : Connection) ∈
            [(⟨"c", "A", "A", "related"⟩ : Connection)] ∧
          (∃ n ∈ visibleNodes [("A", ⟨"A", ⟨0, 0⟩⟩)] ⟨0, 0⟩ 1 800 600,
            n.id = "A") ∧
          (∃ n ∈ visibleNodes [("A", ⟨"A", ⟨0, 0⟩⟩)] ⟨0, 0⟩ 1 800 600,
            n.id = "A")) :=
  ⟨by intro p hp; simp at hp; simp [hp],
   visibleConnections_iff [("A", ⟨"A", ⟨0, 0⟩⟩)] [⟨"c", "A", "A", "related"⟩]
     ⟨0, 0⟩ 1 800 600
     (by intro p hp; simp at hp; simp [hp]) _⟩

/-! ### Lemmas about the indexed assignment loop -/

theorem assignIdx_eq_of_not_mem (f : ℕ → Position) (nodes : List Node)
    (i : ℕ) (pos : String → Option Position) (k : String)
    (hk : k ∉ nodes.map Node.id) :
    assignIdx f nodes i pos k = pos k := by
  induction nodes generalizing i pos with
  | nil => rfl
  | cons n rest ih =>
    simp only [List.map_cons, List.mem_cons, not_or] at hk
    rw [assignIdx, ih _ _ hk.2, upd]
    simp [hk.1]

theorem assignIdx_isSome (f : ℕ → Position) (nodes : List Node) (i : ℕ)
    (pos : String → Option Position) (k : String) :
    (assignIdx f nodes i pos k).isSome ↔
      k ∈ nodes.map Node.id ∨ (pos k).isSome := by
  induction nodes generalizing i pos with
  | nil => simp [assignIdx]
  | cons n rest ih =>
    rw [assignIdx, ih]
    by_cases hk : k = n.id
    · simp [upd, hk]
    · simp [upd, hk]

theorem assignIdx_get (f : ℕ → Position) (nodes : List Node)
    (hnd : (nodes.map Node.id).Nodup) (i₀ : ℕ)
    (pos : String → Option Position) (i : ℕ) (hi : i < nodes.length) :
    assignIdx f nodes i₀ pos (nodes.get ⟨i, hi⟩).id = some (f (i₀ + i)) := by
  induction nodes generalizing i₀ pos i with
  | nil => exact absurd hi (by simp)
  | cons n rest ih =>
    simp only [List.map_cons, List.nodup_cons] at hnd
    cases i with
    | zero =>
      rw [assignIdx, List.get]
      rw [assignIdx_eq_of_not_mem f rest _ _ _ hnd.1]
      simp [upd]
    | succ j =>
      rw [assignIdx, List.get]
      rw [ih hnd.2 (i₀ + 1) _ j (by exact Nat.lt_of_succ_lt_succ hi)]
      have harg : i₀ + 1 + j = i₀ + (j + 1) := by omega
      rw [harg]

/-- C7: with distinct node ids and positive effective spacing, circular
layout places the node at index `i` at angle `(i / N) * 2π` on the circle of
radius `spacing` around the configured center, and every returned position
for that node lies at exactly `spacing` distance from the center. -/
theorem circularLayout_on_circle (nodes : List Node) (options : LayoutOptions)
    (hnd : (nodes.map Node.id).Nodup) (i : ℕ) (hi : i < nodes.length)
    (hs : 0 < orD options.spacing 200) :
    circularLayout nodes options (nodes.get ⟨i, hi⟩).id =
      some ⟨orD options.centerX 0 +
              Real.cos ((i : ℝ) / nodes.length * 2 * Real.pi) *
                orD options.spacing 200,
            orD options.centerY 0 +
              Real.sin ((i : ℝ) / nodes.length * 2 * Real.pi) *
                orD options.spacing 200⟩ ∧
      ∀ p, circularLayout nodes options (nodes.get ⟨i, hi⟩).id = some p →
        Real.sqrt ((p.x - orD options.centerX 0) ^ 2 +
            (p.y - orD options.centerY 0) ^ 2) =
          orD options.spacing 200 := by
  have hlook := assignIdx_get
    (fun index =>
      (⟨orD options.centerX 0 +
          Real.cos ((index : ℝ) / nodes.length * 2 * Real.pi) *
            orD options.spacing 200,
        orD options.centerY 0 +
          Real.sin ((index : ℝ) / nodes.length * 2 * Real.pi) *
            orD options.spacing 200⟩ : Position))
    nodes hnd 0 emptyMap i hi
  have hmain : circularLayout nodes options (nodes.get ⟨i, hi⟩).id =
      some ⟨orD options.centerX 0 +
              Real.cos ((i : ℝ) / nodes.length * 2 * Real.pi) *
                orD options.spacing 200,
            orD options.centerY 0 +
              Real.sin ((i : ℝ) / nodes.length * 2 * Real.pi) *
                orD options.spacing 200⟩ := by
    rw [circularLayout]
    simpa using hlook
  refine ⟨hmain, ?_⟩
  intro p hp
  rw [hmain] at hp
  obtain rfl : p = _ := (Option.some.inj hp).symm
  have hsq : (Real.cos ((i : ℝ) / nodes.length * 2 * Real.pi) *
        orD options.spacing 200) ^ 2 +
      (Real.sin ((i : ℝ) / nodes.length * 2 * Real.pi) *
        orD options.spacing 200) ^ 2 = (orD options.spacing 200) ^ 2 := by
    have := Real.sin_sq_add_cos_sq ((i : ℝ) / nodes.length * 2 * Real.pi)
    nlinarith [this]
  simp only [add_sub_cancel_left]
  rw [hsq]
  exact Real.sqrt_sq hs.le

/-! ### Option-default lemmas -/

theorem orD_none (d : ℝ) : orD none d = d := rfl

theorem orD_some_zero (d : ℝ) : orD (some 0) d = d := if_pos rfl

theorem orD_some_ne (v d : ℝ) (hv : v ≠ 0) : orD (some v) d = v := if_neg hv

theorem orDN_some_zero (d : ℕ) : orDN (some 0) d = d := rfl

/-! ### Seeding lemmas for the force-directed layout -/

theorem seedAssign_eq_of_not_mem (N : ℕ) (nodes : List Node) (i : ℕ)
    (pos : String → Option Position) (k : String)
    (hk : k ∉ nodes.map Node.id) :
    seedAssign N nodes i pos k = pos k := by
  induction nodes generalizing i pos with
  | nil => rfl
  | cons n rest ih =>
    simp only [List.map_cons, List.mem_cons, not_or] at hk
    rw [seedAssign, ih _ _ hk.2]
    by_cases hg : (pos n.id).isSome
    · simp [hg]
    · simp [hg, upd, hk.1]

theorem seedAssign_isSome (N : ℕ) (nodes : List Node) (i : ℕ)
    (pos : String → Option Position) (k : String) :
    (seedAssign N nodes i pos k).isSome ↔
      k ∈ nodes.map Node.id ∨ (pos k).isSome := by
  induction nodes generalizing i pos with
  | nil => simp [seedAssign]
  | cons n rest ih =>
    rw [seedAssign, ih]
    by_cases hg : (pos n.id).isSome
    · by_cases hk : k = n.id
      · subst hk
        simp [hg]
      · simp [hg, hk]
    · by_cases hk : k = n.id
      · subst hk
        simp [hg, upd]
      · simp [hg, upd, hk]

theorem seedAssign_get (N : ℕ) (nodes : List Node)
    (hnd : (nodes.map Node.id).Nodup) (i₀ : ℕ)
    (pos : String → Option Position)
    (hfresh : ∀ k ∈ nodes.map Node.id, pos k = none)
    (i : ℕ) (hi : i < nodes.length) :
    seedAssign N nodes i₀ pos (nodes.get ⟨i, hi⟩).id =
      some ⟨Real.cos (((i₀ + i : ℕ) : ℝ) / N * 2 * Real.pi) * 200,
            Real.sin (((i₀ + i : ℕ) : ℝ) / N * 2 * Real.pi) * 200⟩ := by
  induction nodes generalizing i₀ pos i with
  | nil => exact absurd hi (by simp)
  | cons n rest ih =>
    simp only [List.map_cons, List.nodup_cons] at hnd
    have hn : pos n.id = none := hfresh n.id (by simp)
    have hstep : seedAssign N (n :: rest) i₀ pos =
        seedAssign N rest (i₀ + 1) (upd pos n.id
          ⟨Real.cos ((i₀ : ℝ) / N * 2 * Real.pi) * 200,
           Real.sin ((i₀ : ℝ) / N * 2 * Real.pi) * 200⟩) := by
      rw [seedAssign]
      simp [hn]
    rw [hstep]
    cases i with
    | zero =>
      rw [List.get]
      rw [seedAssign_eq_of_not_mem N rest _ _ _ hnd.1]
      simp [upd]
    | succ j =>
      have hfresh' : ∀ k ∈ rest.map Node.id,
          upd pos n.id
            ⟨Real.cos ((i₀ : ℝ) / N * 2 * Real.pi) * 200,
             Real.sin ((i₀ : ℝ) / N * 2 * Real.pi) * 200⟩ k = none := by
        intro k hk
        have hne : k ≠ n.id := fun h => hnd.1 (h ▸ hk)
        simp only [upd, if_neg hne]
        exact hfresh k (by simp [hk])
      rw [List.get]
      rw [ih hnd.2 (i₀ + 1) _ hfresh' j (Nat.lt_of_succ_lt_succ hi)]
      have harg : i₀ + 1 + j = i₀ + (j + 1) := by omega
      rw [harg]

theorem seedPositions_isSome (nodes : List Node) (k : String) :
    (seedPositions nodes k).isSome ↔ k ∈ nodes.map Node.id := by
  rw [seedPositions, seedAssign_isSome]
  simp [emptyMap]

theorem seedPositions_get (nodes : List Node)
    (hnd : (nodes.map Node.id).Nodup) (i : ℕ) (hi : i < nodes.length) :
    seedPositions nodes (nodes.get ⟨i, hi⟩).id =
      some ⟨Real.cos ((i : ℝ) / nodes.length * 2 * Real.pi) * 200,
            Real.sin ((i : ℝ) / nodes.length * 2 * Real.pi) * 200⟩ := by
  have h := seedAssign_get nodes.length nodes hnd 0 emptyMap
    (fun k _ => rfl) i hi
  simpa using h

/-! ### Domain lemmas for the force-directed iteration -/

theorem moveNodes_isSome (nodes : List Node) (conns : List Connection)
    (a r : ℝ) (pos : String → Option Position) (ns : List Node)
    (p : String → Option Position) (k : String) :
    ((moveNodes nodes conns a r pos ns p) k).isSome ↔ (p k).isSome := by
  induction ns generalizing p with
  | nil => exact Iff.rfl
  | cons n rest ih =>
    rw [moveNodes, ih]
    cases hp : p n.id with
    | none => simp [hp]
    | some q =>
      by_cases hk : k = n.id
      · subst hk
        simp [hp, upd]
      · simp [hp, upd, hk]

theorem forceStep_isSome (nodes : List Node) (conns : List Connection)
    (a r : ℝ) (pos : String → Option Position) (k : String) :
    ((forceStep nodes conns a r pos) k).isSome ↔ (pos k).isSome :=
  moveNodes_isSome nodes conns a r pos nodes pos k

theorem forceIter_isSome (nodes : List Node) (conns : List Connection)
    (a r : ℝ) (m : ℕ) (pos : String → Option Position) (k : String) :
    (((forceStep nodes conns a r)^[m] pos) k).isSome ↔ (pos k).isSome := by
  induction m generalizing pos with
  | zero => exact Iff.rfl
  | succ m ih =>
    rw [Function.iterate_succ_apply, ih, forceStep_isSome]

theorem forceDirectedLayout_isSome (nodes : List Node)
    (conns : List Connection) (options : LayoutOptions) (k : String) :
    ((forceDirectedLayout nodes conns options) k).isSome ↔
      k ∈ nodes.map Node.id := by
  rw [forceDirectedLayout]
  rw [forceIter_isSome, seedPositions_isSome]

/-! ### Evaluation of the two-node force-directed run -/

theorem twoNode_forceOn_A (attr a : ℝ) (ha : 0 < a) :
    forceOn [nodeA, nodeB] [] attr 1000 (twoNodeState a) nodeA =
      (250 / a ^ 2, 0) := by
  have e1 : forceOn [nodeA, nodeB] [] attr 1000 (twoNodeState a) nodeA =
      ((0 : ℝ) - (-a - a) / distOr1 (-a - a) (0 - 0) *
         (1000 / (distOr1 (-a - a) (0 - 0) * distOr1 (-a - a) (0 - 0))),
       (0 : ℝ) - (0 - 0) / distOr1 (-a - a) (0 - 0) *
         (1000 / (distOr1 (-a - a) (0 - 0) * distOr1 (-a - a) (0 - 0)))) := rfl
  have hsqrt : Real.sqrt ((-a - a) * (-a - a) + ((0:ℝ) - 0) * ((0:ℝ) - 0)) =
      2 * a := by
    have h : ((-a - a) * (-a - a) + ((0:ℝ) - 0) * ((0:ℝ) - 0)) =
        (2 * a) * (2 * a) := by ring
    rw [h, Real.sqrt_mul_self (by positivity)]
  have hd : distOr1 (-a - a) (0 - 0) = 2 * a := by
    rw [distOr1, hsqrt]
    rw [if_neg (by positivity)]
  rw [e1, hd]
  have h2a : (2 : ℝ) * a ≠ 0 := by positivity
  refine Prod.ext ?_ ?_
  · show (0 : ℝ) - (-a - a) / (2 * a) * (1000 / (2 * a * (2 * a))) = 250 / a ^ 2
    field_simp
    ring
  · show (0 : ℝ) - (0 - 0) / (2 * a) * (1000 / (2 * a * (2 * a))) = 0
    ring

theorem twoNode_forceOn_B (attr a : ℝ) (ha : 0 < a) :
    forceOn [nodeA, nodeB] [] attr 1000 (twoNodeState a) nodeB =
      (-(250 / a ^ 2), 0) := by
  have e1 : forceOn [nodeA, nodeB] [] attr 1000 (twoNodeState a) nodeB =
      ((0 : ℝ) - (a - -a) / distOr1 (a - -a) (0 - 0) *
         (1000 / (distOr1 (a - -a) (0 - 0) * distOr1 (a - -a) (0 - 0))),
       (0 : ℝ) - (0 - 0) / distOr1 (a - -a) (0 - 0) *
         (1000 / (distOr1 (a - -a) (0 - 0) * distOr1 (a - -a) (0 - 0)))) := rfl
  have hsqrt : Real.sqrt ((a - -a) * (a - -a) + ((0:ℝ) - 0) * ((0:ℝ) - 0)) =
      2 * a := by
    have h : ((a - -a) * (a - -a) + ((0:ℝ) - 0) * ((0:ℝ) - 0)) =
        (2 * a) * (2 * a) := by ring
    rw [h, Real.sqrt_mul_self (by positivity)]
  have hd : distOr1 (a - -a) (0 - 0) = 2 * a := by
    rw [distOr1, hsqrt]
    rw [if_neg (by positivity)]
  rw [e1, hd]
  refine Prod.ext ?_ ?_
  · show (0 : ℝ) - (a - -a) / (2 * a) * (1000 / (2 * a * (2 * a))) =
      -(250 / a ^ 2)
    field_simp
    ring
  · show (0 : ℝ) - (0 - 0) / (2 * a) * (1000 / (2 * a * (2 * a))) = 0
    ring

theorem twoNodeStep (attr a : ℝ) (ha : 0 < a) :
    forceStep [nodeA, nodeB] [] attr 1000 (twoNodeState a) =
      twoNodeState (a + 225 / a ^ 2) := by
  have s1 : forceStep [nodeA, nodeB] [] attr 1000 (twoNodeState a) =
      moveNodes [nodeA, nodeB] [] attr 1000 (twoNodeState a) [nodeB]
        (upd (twoNodeState a) "A"
          ⟨a + (forceOn [nodeA, nodeB] [] attr 1000 (twoNodeState a) nodeA).1
              * 0.9,
           0 + (forceOn [nodeA, nodeB] [] attr 1000 (twoNodeState a) nodeA).2
              * 0.9⟩) := rfl
  have s2 : ∀ vA : Position,
      moveNodes [nodeA, nodeB] [] attr 1000 (twoNodeState a) [nodeB]
        (upd (twoNodeState a) "A" vA) =
      upd (upd (twoNodeState a) "A" vA) "B"
        ⟨-a + (forceOn [nodeA, nodeB] [] attr 1000 (twoNodeState a) nodeB).1
            * 0.9,
         0 + (forceOn [nodeA, nodeB] [] attr 1000 (twoNodeState a) nodeB).2
            * 0.9⟩ := fun vA => rfl
  rw [s1, s2, twoNode_forceOn_A attr a ha, twoNode_forceOn_B attr a ha]
  funext k
  by_cases hA : k = "A"
  · subst hA
    show upd _ "B" _ "A" = _
    rw [upd, if_neg (by decide)]
    rw [upd, if_pos rfl]
    show some ⟨a + 250 / a ^ 2 * 0.9, 0 + 0 * 0.9⟩ =
      twoNodeState (a + 225 / a ^ 2) "A"
    rw [twoNodeState]
    rw [if_pos rfl]
    congr 1
    ext
    · show a + 250 / a ^ 2 * 0.9 = a + 225 / a ^ 2
      rw [div_mul_eq_mul_div, mul_comm]
      norm_num
    · show (0 : ℝ) + 0 * 0.9 = 0
      ring
  · by_cases hB : k = "B"
    · subst hB
      rw [upd, if_pos rfl]
      show some ⟨-a + -(250 / a ^ 2) * 0.9, 0 + 0 * 0.9⟩ =
        twoNodeState (a + 225 / a ^ 2) "B"
      rw [twoNodeState]
      rw [if_neg (by decide), if_pos rfl]
      congr 1
      ext
      · show -a + -(250 / a ^ 2) * 0.9 = -(a + 225 / a ^ 2)
        rw [neg_mul]
        rw [div_mul_eq_mul_div, mul_comm]
        norm_num
        ring
      · show (0 : ℝ) + 0 * 0.9 = 0
        ring
    · rw [upd, if_neg hB, upd, if_neg hA, twoNodeState, twoNodeState]
      rw [if_neg hA, if_neg hB, if_neg hA, if_neg hB]

theorem seedPositions_AB :
    seedPositions [nodeA, nodeB] = twoNodeState 200 := by
  have hstep : seedPositions [nodeA, nodeB] =
      upd (upd emptyMap "A"
          ⟨Real.cos (((0 : ℕ) : ℝ) / ((2 : ℕ) : ℝ) * 2 * Real.pi) * 200,
           Real.sin (((0 : ℕ) : ℝ) / ((2 : ℕ) : ℝ) * 2 * Real.pi) * 200⟩)
        "B"
          ⟨Real.cos (((1 : ℕ) : ℝ) / ((2 : ℕ) : ℝ) * 2 * Real.pi) * 200,
           Real.sin (((1 : ℕ) : ℝ) / ((2 : ℕ) : ℝ) * 2 * Real.pi) * 200⟩ := rfl
  have h0 : ((0 : ℕ) : ℝ) / ((2 : ℕ) : ℝ) * 2 * Real.pi = 0 := by
    norm_num
  have h1 : ((1 : ℕ) : ℝ) / ((2 : ℕ) : ℝ) * 2 * Real.pi = Real.pi := by
    norm_num
  rw [hstep]
  funext k
  by_cases hA : k = "A"
  · subst hA
    rw [upd, if_neg (by decide), upd, if_pos rfl, twoNodeState, if_pos rfl]
    rw [h0]
    simp [Real.cos_zero, Real.sin_zero]
  · by_cases hB : k = "B"
    · subst hB
      rw [upd, if_pos rfl, twoNodeState, if_neg (by decide), if_pos rfl]
      rw [h1]
      simp [Real.cos_pi, Real.sin_pi]
    · rw [upd, if_neg hB, upd, if_neg hA, twoNodeState, if_neg hA, if_neg hB]
      rfl

theorem twoNodeIter (attr : ℝ) (m : ℕ) :
    ∃ a : ℝ, 200 ≤ a ∧
      (forceStep [nodeA, nodeB] [] attr 1000)^[m] (twoNodeState 200) =
        twoNodeState a ∧
      (1 ≤ m → 200 < a) := by
  induction m with
  | zero =>
    exact ⟨200, le_refl _, rfl, by omega⟩
  | succ m ih =>
    obtain ⟨a, ha, heq, _⟩ := ih
    have hpos : (0 : ℝ) < a := by linarith
    have hfrac : (0 : ℝ) < 225 / a ^ 2 := by positivity
    refine ⟨a + 225 / a ^ 2, by linarith, ?_, fun _ => by linarith⟩
    rw [Function.iterate_succ_apply', heq, twoNodeStep attr a hpos]

/-- Counterexample to C3: with `maxIterations = 0` on a two-node graph with
no edges, the force-directed result at node `"A"` differs from its seeded
position — the `||`-default makes 0 mean 100 iterations, and the repulsion
moves the nodes. -/
theorem forceDirected_maxIterZero_not_seed :
    forceDirectedLayout [nodeA, nodeB] [] optsMaxIterZero "A" ≠
      seedPositions [nodeA, nodeB] "A" := by
  obtain ⟨a, ha, heq, hgt⟩ := twoNodeIter (orD none 0.01) 100
  have hfd : forceDirectedLayout [nodeA, nodeB] [] optsMaxIterZero =
      (forceStep [nodeA, nodeB] [] (orD none 0.01) (orD none 1000))^[100]
        (seedPositions [nodeA, nodeB]) := rfl
  have h1000 : orD (none : Option ℝ) 1000 = 1000 := rfl
  rw [hfd, h1000, seedPositions_AB, heq]
  have hlt : (200 : ℝ) < a := hgt (by norm_num)
  rw [twoNodeState, twoNodeState, if_pos rfl, if_pos rfl]
  intro h
  have hx := congrArg (fun o => (Option.getD o ⟨0, 0⟩).x) h
  simp only [Option.getD_some] at hx
  exact absurd hx (by intro hax; rw [hax] at hlt; exact lt_irrefl _ hlt)

/-- C3 amended: with `maxIterations = 0` the engine runs the default 100
relaxation iterations starting from the seeded positions, where the node at
index `i` of a duplicate-free node list is seeded at exactly
`(200·cos(2π·i/N), 200·sin(2π·i/N))`. -/
theorem forceDirected_maxIterZero_amended (nodes : List Node)
    (conns : List Connection) (alg : LayoutAlgorithm)
    (sp cx cy af rf : Option ℝ) :
    forceDirectedLayout nodes conns ⟨alg, sp, cx, cy, some 0, af, rf⟩ =
      (forceStep nodes conns (orD af 0.01) (orD rf 1000))^[100]
        (seedPositions nodes) ∧
    ∀ (_ : (nodes.map Node.id).Nodup) (i : ℕ) (hi : i < nodes.length),
      seedPositions nodes (nodes.get ⟨i, hi⟩).id =
        some ⟨Real.cos ((i : ℝ) / nodes.length * 2 * Real.pi) * 200,
              Real.sin ((i : ℝ) / nodes.length * 2 * Real.pi) * 200⟩ :=
  ⟨rfl, fun hnd i hi => seedPositions_get nodes hnd i hi⟩

/-- Witness for C3 (amended): concrete two-node instance; node at index 0
is seeded at angle 0. -/
theorem forceDirected_maxIterZero_amended_witness :
    (([nodeA, nodeB] : List Node).map Node.id).Nodup ∧
      (0 < ([nodeA, nodeB] : List Node).length) ∧
      seedPositions [nodeA, nodeB]
          (([nodeA, nodeB] : List Node).get ⟨0, by norm_num⟩).id =
        some ⟨Real.cos (((0 : ℕ) : ℝ) / (([nodeA, nodeB] : List Node).length : ℝ)
                  * 2 * Real.pi) * 200,
              Real.sin (((0 : ℕ) : ℝ) / (([nodeA, nodeB] : List Node).length : ℝ)
                  * 2 * Real.pi) * 200⟩ :=
  ⟨by decide, by norm_num,
   (forceDirected_maxIterZero_amended [nodeA, nodeB] []
      LayoutAlgorithm.forceDirected none none none none none).2
     (by decide) 0 (by norm_num)⟩

/-- Witness for C7: a single node with spacing 100; its returned position is
at distance 100 from the (default) center. -/
theorem circularLayout_on_circle_witness :
    ((([⟨"A", ⟨0, 0⟩⟩] : List Node).map Node.id).Nodup ∧
        (0:ℝ) < orD (some 100) 200) ∧
      ∀ p, circularLayout [⟨"A", ⟨0, 0⟩⟩]
            ⟨LayoutAlgorithm.circular, some 100, none, none, none, none, none⟩
            "A" = some p →
        Real.sqrt ((p.x - orD none 0) ^ 2 + (p.y - orD none 0) ^ 2) =
          orD (some 100) 200 :=
  ⟨⟨by decide, by norm_num [orD]⟩,
   (circularLayout_on_circle [⟨"A", ⟨0, 0⟩⟩]
      ⟨LayoutAlgorithm.circular, some 100, none, none, none, none, none⟩
      (by decide) 0 (by norm_num) (by norm_num [orD])).2⟩

/-! ### BFS lemmas for `centerOnNode` -/

theorem sqrt_norm_cos_sin (θ r : ℝ) (hr : 0 ≤ r) :
    Real.sqrt ((Real.cos θ * r) ^ 2 + (Real.sin θ * r) ^ 2) = r := by
  have h : (Real.cos θ * r) ^ 2 + (Real.sin θ * r) ^ 2 = r ^ 2 := by
    have hcs := Real.sin_sq_add_cos_sq θ
    nlinarith [hcs]
  rw [h, Real.sqrt_sq hr]

theorem bfsExtends_refl (radius : ℝ) (s : BfsState) : BfsExtends radius s s :=
  ⟨fun _ h => h, fun _ _ => rfl, fun id hni hi => absurd hi hni⟩

theorem bfsExtends_trans (radius : ℝ) (s t u : BfsState)
    (hst : BfsExtends radius s t) (htu : BfsExtends radius t u) :
    BfsExtends radius s u := by
  refine ⟨fun x hx => htu.1 x (hst.1 x hx),
    fun id hid => (htu.2.1 id (hst.1 id hid)).trans (hst.2.1 id hid),
    fun id hni hiu => ?_⟩
  by_cases hit : id ∈ t.visited
  · obtain ⟨p, hp, hnorm⟩ := hst.2.2 id hni hit
    exact ⟨p, (htu.2.1 id hit).trans hp, hnorm⟩
  · exact htu.2.2 id hit hiu

theorem addDiscovered_extends (radius : ℝ) (hr : 0 ≤ radius) (levelSize : ℕ)
    (nid : String) (s : BfsState) (hnid : nid ∉ s.visited) :
    BfsExtends radius s (addDiscovered radius levelSize nid s) := by
  rw [addDiscovered]
  refine ⟨fun x hx => List.mem_append_left _ hx, fun id hid => ?_, ?_⟩
  · have hne : id ≠ nid := fun h => hnid (h ▸ hid)
    show upd s.pos nid _ id = s.pos id
    rw [upd, if_neg hne]
  · intro id hni hmem
    rcases List.mem_append.mp hmem with h | h
    · exact absurd h hni
    · have hid : id = nid := by simpa using h
      subst hid
      refine ⟨⟨Real.cos ((s.visited.length : ℝ) /
            ((max 6 (levelSize * 2) : ℕ) : ℝ) * 2 * Real.pi) * radius,
          Real.sin ((s.visited.length : ℝ) /
            ((max 6 (levelSize * 2) : ℕ) : ℝ) * 2 * Real.pi) * radius⟩,
        ?_, ?_⟩
      · show upd _ _ _ _ = _
        rw [upd, if_pos rfl]
      · exact sqrt_norm_cos_sin _ radius hr

theorem discoverStep_extends (nodes : List (String × Node)) (radius : ℝ)
    (hr : 0 ≤ radius) (levelSize : ℕ) (qid : String) (c : Connection)
    (s : BfsState) :
    BfsExtends radius s (discoverStep nodes radius levelSize qid c s) := by
  rw [discoverStep]
  by_cases h₁ : c.«from» = qid ∧ c.«to» ∉ s.visited
  · rw [if_pos h₁]
    by_cases hreal : c.«to» ≠ "" ∧ (objGet nodes c.«to»).isSome
    · rw [if_pos hreal]
      exact addDiscovered_extends radius hr levelSize c.«to» s h₁.2
    · rw [if_neg hreal]
      exact bfsExtends_refl radius s
  · rw [if_neg h₁]
    by_cases h₂ : c.«to» = qid ∧ c.«from» ∉ s.visited
    · rw [if_pos h₂]
      by_cases hreal : c.«from» ≠ "" ∧ (objGet nodes c.«from»).isSome
      · rw [if_pos hreal]
        exact addDiscovered_extends radius hr levelSize c.«from» s h₂.2
      · rw [if_neg hreal]
        exact bfsExtends_refl radius s
    · rw [if_neg h₂]
      exact bfsExtends_refl radius s

theorem discoverStep_visited_mono (nodes : List (String × Node)) (radius : ℝ)
    (levelSize : ℕ) (qid : String) (c : Connection) (s : BfsState)
    (x : String) (hx : x ∈ s.visited) :
    x ∈ (discoverStep nodes radius levelSize qid c s).visited := by
  rw [discoverStep]
  by_cases h₁ : c.«from» = qid ∧ c.«to» ∉ s.visited
  · rw [if_pos h₁]
    by_cases hreal : c.«to» ≠ "" ∧ (objGet nodes c.«to»).isSome
    · rw [if_pos hreal, addDiscovered]
      exact List.mem_append_left _ hx
    · rw [if_neg hreal]
      exact hx
  · rw [if_neg h₁]
    by_cases h₂ : c.«to» = qid ∧ c.«from» ∉ s.visited
    · rw [if_pos h₂]
      by_cases hreal : c.«from» ≠ "" ∧ (objGet nodes c.«from»).isSome
      · rw [if_pos hreal, addDiscovered]
        exact List.mem_append_left _ hx
      · rw [if_neg hreal]
        exact hx
    · rw [if_neg h₂]
      exact hx

theorem discover_extends (nodes : List (String × Node)) (radius : ℝ)
    (hr : 0 ≤ radius) (levelSize : ℕ) (qid : String)
    (cs : List Connection) (s : BfsState) :
    BfsExtends radius s (discover nodes radius levelSize qid cs s) := by
  induction cs generalizing s with
  | nil => exact bfsExtends_refl radius s
  | cons c rest ih =>
    rw [discover]
    exact bfsExtends_trans radius _ _ _
      (discoverStep_extends nodes radius hr levelSize qid c s) (ih _)

theorem processBatch_extends (nodes : List (String × Node)) (radius : ℝ)
    (hr : 0 ≤ radius) (levelSize : ℕ) (conns : List Connection)
    (batch : List String) (s : BfsState) :
    BfsExtends radius s (processBatch nodes radius levelSize conns batch s) := by
  induction batch generalizing s with
  | nil => exact bfsExtends_refl radius s
  | cons q qrest ih =>
    rw [processBatch]
    exact bfsExtends_trans radius _ _ _
      (discover_extends nodes radius hr levelSize q conns s) (ih _)

theorem bfsLoop_stable (nodes : List (String × Node)) (conns : List Connection)
    (fuel : ℕ) :
    ∀ (queue visited : List String) (pos : String → Option Position)
      (level : ℕ) (id : String), id ∈ visited →
      bfsLoop nodes conns fuel queue visited pos level id = pos id := by
  induction fuel with
  | zero => intro queue visited pos level id _; rfl
  | succ f ih =>
    intro queue visited pos level id hid
    rw [bfsLoop]
    by_cases hq : queue.isEmpty
    · rw [if_pos hq]
    · rw [if_neg hq]
      show bfsLoop nodes conns f
        (processBatch nodes (((level + 1 : ℕ) : ℝ) * 150) queue.length conns
          queue ⟨visited, pos, []⟩).queue
        (processBatch nodes (((level + 1 : ℕ) : ℝ) * 150) queue.length conns
          queue ⟨visited, pos, []⟩).visited
        (processBatch nodes (((level + 1 : ℕ) : ℝ) * 150) queue.length conns
          queue ⟨visited, pos, []⟩).pos (level + 1) id = pos id
      have hext := processBatch_extends nodes (((level + 1 : ℕ) : ℝ) * 150)
        (by positivity) queue.length conns queue ⟨visited, pos, []⟩
      rw [ih _ _ _ _ id (hext.1 id hid)]
      exact hext.2.1 id hid

theorem discoverStep_covers (nodes : List (String × Node)) (radius : ℝ)
    (levelSize : ℕ) (qid : String) (c : Connection) (s : BfsState)
    (w : String) (hwne : w ≠ qid) (hwnil : w ≠ "")
    (hreal : (objGet nodes w).isSome)
    (h : w ∈ s.visited ∨
      (c.«from» = qid ∧ c.«to» = w) ∨ (c.«to» = qid ∧ c.«from» = w)) :
    w ∈ (discoverStep nodes radius levelSize qid c s).visited := by
  rcases h with hv | ⟨hf, ht⟩ | ⟨ht, hf⟩
  · exact discoverStep_visited_mono nodes radius levelSize qid c s w hv
  · by_cases hvis : w ∈ s.visited
    · exact discoverStep_visited_mono nodes radius levelSize qid c s w hvis
    · rw [discoverStep]
      rw [if_pos ⟨hf, ht ▸ hvis⟩]
      rw [ht, if_pos ⟨hwnil, hreal⟩, addDiscovered]
      exact List.mem_append_right _ (by simp)
  · by_cases hvis : w ∈ s.visited
    · exact discoverStep_visited_mono nodes radius levelSize qid c s w hvis
    · rw [discoverStep]
      have hne₁ : ¬(c.«from» = qid ∧ c.«to» ∉ s.visited) := by
        rintro ⟨hfq, _⟩
        exact hwne (hf ▸ hfq)
      rw [if_neg hne₁]
      rw [if_pos ⟨ht, hf ▸ hvis⟩]
      rw [hf, if_pos ⟨hwnil, hreal⟩, addDiscovered]
      exact List.mem_append_right _ (by simp)

theorem discover_covers (nodes : List (String × Node)) (radius : ℝ)
    (levelSize : ℕ) (qid : String) (cs : List Connection) (s : BfsState)
    (w : String) (hwne : w ≠ qid) (hwnil : w ≠ "")
    (hreal : (objGet nodes w).isSome)
    (h : w ∈ s.visited ∨ ∃ c ∈ cs,
      (c.«from» = qid ∧ c.«to» = w) ∨ (c.«to» = qid ∧ c.«from» = w)) :
    w ∈ (discover nodes radius levelSize qid cs s).visited := by
  induction cs generalizing s with
  | nil =>
    rcases h with hv | ⟨c, hc, _⟩
    · exact hv
    · exact absurd hc (by simp)
  | cons c rest ih =>
    rw [discover]
    rcases h with hv | ⟨c', hc', hadj⟩
    · exact ih _ (Or.inl (discoverStep_covers nodes radius levelSize qid c s
        w hwne hwnil hreal (Or.inl hv)))
    · rcases List.mem_cons.mp hc' with rfl | hc'
      · exact ih _ (Or.inl (discoverStep_covers nodes radius levelSize qid c'
          s w hwne hwnil hreal (Or.inr hadj)))
      · exact ih _ (Or.inr ⟨c', hc', hadj⟩)

theorem discoverStep_domain (nodes : List (String × Node)) (radius : ℝ)
    (levelSize : ℕ) (qid : String) (c : Connection) (s : BfsState)
    (hdom : ∀ id, ((s.pos id).isSome) → (objGet nodes id).isSome) :
    ∀ id, (((discoverStep nodes radius levelSize qid c s).pos id).isSome) →
      (objGet nodes id).isSome := by
  intro id
  rw [discoverStep]
  by_cases h₁ : c.«from» = qid ∧ c.«to» ∉ s.visited
  · rw [if_pos h₁]
    by_cases hreal : c.«to» ≠ "" ∧ (objGet nodes c.«to»).isSome
    · rw [if_pos hreal, addDiscovered]
      show ((upd s.pos c.«to» _ id).isSome) → _
      rw [upd]
      by_cases hid : id = c.«to»
      · rw [if_pos hid]
        intro _
        exact hid ▸ hreal.2
      · rw [if_neg hid]
        exact hdom id
    · rw [if_neg hreal]
      exact hdom id
  · rw [if_neg h₁]
    by_cases h₂ : c.«to» = qid ∧ c.«from» ∉ s.visited
    · rw [if_pos h₂]
      by_cases hreal : c.«from» ≠ "" ∧ (objGet nodes c.«from»).isSome
      · rw [if_pos hreal, addDiscovered]
        show ((upd s.pos c.«from» _ id).isSome) → _
        rw [upd]
        by_cases hid : id = c.«from»
        · rw [if_pos hid]
          intro _
          exact hid ▸ hreal.2
        · rw [if_neg hid]
          exact hdom id
      · rw [if_neg hreal]
        exact hdom id
    · rw [if_neg h₂]
      exact hdom id

theorem discover_domain (nodes : List (String × Node)) (radius : ℝ)
    (levelSize : ℕ) (qid : String) (cs : List Connection) (s : BfsState)
    (hdom : ∀ id, ((s.pos id).isSome) → (objGet nodes id).isSome) :
    ∀ id, (((discover nodes radius levelSize qid cs s).pos id).isSome) →
      (objGet nodes id).isSome := by
  induction cs generalizing s with
  | nil => exact hdom
  | cons c rest ih =>
    rw [discover]
    exact ih _ (discoverStep_domain nodes radius levelSize qid c s hdom)

theorem processBatch_domain (nodes : List (String × Node)) (radius : ℝ)
    (levelSize : ℕ) (conns : List Connection) (batch : List String)
    (s : BfsState)
    (hdom : ∀ id, ((s.pos id).isSome) → (objGet nodes id).isSome) :
    ∀ id, (((processBatch nodes radius levelSize conns batch s).pos
        id).isSome) → (objGet nodes id).isSome := by
  induction batch generalizing s with
  | nil => exact hdom
  | cons q qrest ih =>
    rw [processBatch]
    exact ih _ (discover_domain nodes radius levelSize q conns s hdom)

theorem bfsLoop_domain (nodes : List (String × Node)) (conns : List Connection)
    (fuel : ℕ) :
    ∀ (queue visited : List String) (pos : String → Option Position)
      (level : ℕ),
      (∀ id, ((pos id).isSome) → (objGet nodes id).isSome) →
      ∀ id, ((bfsLoop nodes conns fuel queue visited pos level id).isSome) →
        (objGet nodes id).isSome := by
  induction fuel with
  | zero => intro _ _ pos _ hdom id; exact hdom id
  | succ f ih =>
    intro queue visited pos level hdom id
    rw [bfsLoop]
    by_cases hq : queue.isEmpty
    · rw [if_pos hq]
      exact hdom id
    · rw [if_neg hq]
      show ((bfsLoop nodes conns f
          (processBatch nodes (((level + 1 : ℕ) : ℝ) * 150) queue.length conns
            queue ⟨visited, pos, []⟩).queue
          (processBatch nodes (((level + 1 : ℕ) : ℝ) * 150) queue.length conns
            queue ⟨visited, pos, []⟩).visited
          (processBatch nodes (((level + 1 : ℕ) : ℝ) * 150) queue.length conns
            queue ⟨visited, pos, []⟩).pos (level + 1) id).isSome) → _
      exact ih _ _ _ _ (processBatch_domain nodes _ _ conns queue _ hdom) id

/-- Helper for C1: `centerOnNode` never returns an entry for an id that is
not a key of the input node dictionary. -/
theorem centerOnNode_domain (nodes : List (String × Node)) (cid : String)
    (conns : List Connection) (id : String)
    (h : ((centerOnNode nodes cid conns) id).isSome) :
    (objGet nodes id).isSome := by
  rw [centerOnNode] at h
  by_cases hc : (objGet nodes cid).isSome
  · rw [if_pos hc] at h
    refine bfsLoop_domain nodes conns (nodes.length + 2) [cid] [cid]
      (upd emptyMap cid ⟨0, 0⟩) 0 ?_ id h
    intro j hj
    rw [upd] at hj
    by_cases hjc : j = cid
    · exact hjc ▸ hc
    · rw [if_neg hjc] at hj
      exact absurd hj (by simp [emptyMap])
  · rw [if_neg hc] at h
    exact absurd h (by simp [emptyMap])

/-- C8 counterexample: a neighbor whose id is the empty string is present
in the node set and shares an edge with the focus node `"A"`, yet receives
no position at all — in `if (nextNodeId && nodes[nextNodeId])` the string
`""` is falsy, so the program skips it.  This refutes the claim's universal
"every direct neighbor ... receives a position at Euclidean distance
exactly 150". -/
theorem centerOnNode_empty_id_neighbor_skipped :
    (objGet [("A", nodeA), ("", nodeEmptyId)] "").isSome ∧
    (∃ c ∈ [(⟨"c1", "A", "", "related"⟩ : Connection)],
      (c.«from» = "A" ∧ c.«to» = "") ∨ (c.«to» = "A" ∧ c.«from» = "")) ∧
    centerOnNode [("A", nodeA), ("", nodeEmptyId)] "A"
      [⟨"c1", "A", "", "related"⟩] "" = none :=
  ⟨rfl, ⟨⟨"c1", "A", "", "related"⟩, by simp, Or.inl ⟨rfl, rfl⟩⟩, rfl⟩

/-- C8 amended: when the focus node exists, `centerOnNode` returns the
origin for the focus node, and every direct neighbor of the focus node
(sharing an edge of any kind, present in the node set) whose id is not the
empty string is placed at Euclidean distance exactly 150 from the origin.
(An empty-string id is falsy in the JS guard
`if (nextNodeId && nodes[nextNodeId])` and is skipped.) -/
theorem centerOnNode_focus_and_neighbors_amended
    (nodes : List (String × Node))
    (cid : String) (conns : List Connection)
    (hc : (objGet nodes cid).isSome) :
    centerOnNode nodes cid conns cid = some ⟨0, 0⟩ ∧
    ∀ w, w ≠ cid → w ≠ "" → (objGet nodes w).isSome →
      (∃ c ∈ conns,
        (c.«from» = cid ∧ c.«to» = w) ∨ (c.«to» = cid ∧ c.«from» = w)) →
      ∃ p, centerOnNode nodes cid conns w = some p ∧
        Real.sqrt (p.x ^ 2 + p.y ^ 2) = 150 := by
  have hcen : centerOnNode nodes cid conns =
      bfsLoop nodes conns (nodes.length + 2) [cid] [cid]
        (upd emptyMap cid ⟨0, 0⟩) 0 := by
    rw [centerOnNode, if_pos hc]
  have hfuel : nodes.length + 2 = (nodes.length + 1) + 1 := rfl
  have hstep : bfsLoop nodes conns (nodes.length + 2) [cid] [cid]
      (upd emptyMap cid ⟨0, 0⟩) 0 =
      bfsLoop nodes conns (nodes.length + 1)
        (processBatch nodes (((0 + 1 : ℕ) : ℝ) * 150)
          (List.length [cid]) conns [cid]
          ⟨[cid], upd emptyMap cid ⟨0, 0⟩, []⟩).queue
        (processBatch nodes (((0 + 1 : ℕ) : ℝ) * 150)
          (List.length [cid]) conns [cid]
          ⟨[cid], upd emptyMap cid ⟨0, 0⟩, []⟩).visited
        (processBatch nodes (((0 + 1 : ℕ) : ℝ) * 150)
          (List.length [cid]) conns [cid]
          ⟨[cid], upd emptyMap cid ⟨0, 0⟩, []⟩).pos 1 := by
    rw [hfuel, bfsLoop]
    rw [if_neg (by simp)]
  have hbatch : processBatch nodes (((0 + 1 : ℕ) : ℝ) * 150)
      (List.length [cid]) conns [cid] ⟨[cid], upd emptyMap cid ⟨0, 0⟩, []⟩ =
      discover nodes (((0 + 1 : ℕ) : ℝ) * 150) (List.length [cid]) cid conns
        ⟨[cid], upd emptyMap cid ⟨0, 0⟩, []⟩ := by
    rw [processBatch, processBatch]
  have hr150 : (((0 + 1 : ℕ) : ℝ) * 150) = 150 := by norm_num
  have hext := discover_extends nodes (((0 + 1 : ℕ) : ℝ) * 150)
    (by norm_num) (List.length [cid]) cid conns
    ⟨[cid], upd emptyMap cid ⟨0, 0⟩, []⟩
  constructor
  · rw [hcen, hstep, hbatch]
    have hcv : cid ∈ (discover nodes (((0 + 1 : ℕ) : ℝ) * 150)
        (List.length [cid]) cid conns
        ⟨[cid], upd emptyMap cid ⟨0, 0⟩, []⟩).visited :=
      hext.1 cid (by simp)
    rw [bfsLoop_stable nodes conns (nodes.length + 1) _ _ _ _ cid hcv]
    rw [hext.2.1 cid (by simp)]
    simp [upd]
  · intro w hwne hwnil hwreal hadj
    have hwv : w ∈ (discover nodes (((0 + 1 : ℕ) : ℝ) * 150)
        (List.length [cid]) cid conns
        ⟨[cid], upd emptyMap cid ⟨0, 0⟩, []⟩).visited := by
      refine discover_covers nodes _ _ cid conns _ w hwne hwnil hwreal ?_
      exact Or.inr hadj
    have hwnotv : w ∉ ([cid] : List String) := by simp [hwne]
    obtain ⟨p, hp, hnorm⟩ := hext.2.2 w hwnotv hwv
    refine ⟨p, ?_, by rw [hnorm, hr150]⟩
    rw [hcen, hstep, hbatch]
    rw [bfsLoop_stable nodes conns (nodes.length + 1) _ _ _ _ w hwv]
    exact hp

/-- Witness for C8 (amended): focus `"A"` with single neighbor `"B"`. -/
theorem centerOnNode_focus_and_neighbors_amended_witness :
    (objGet [("A", nodeA), ("B", nodeB)] "A").isSome ∧
      ("B" ≠ "A") ∧ ("B" ≠ "") ∧
      (objGet [("A", nodeA), ("B", nodeB)] "B").isSome ∧
      (∃ c ∈ [(⟨"c1", "A", "B", "related"⟩ : Connection)],
        (c.«from» = "A" ∧ c.«to» = "B") ∨ (c.«to» = "A" ∧ c.«from» = "B")) ∧
      ∃ p, centerOnNode [("A", nodeA), ("B", nodeB)] "A"
            [⟨"c1", "A", "B", "related"⟩] "B" = some p ∧
        Real.sqrt (p.x ^ 2 + p.y ^ 2) = 150 :=
  ⟨rfl, by decide, by decide, rfl,
   ⟨⟨"c1", "A", "B", "related"⟩, by simp, Or.inl ⟨rfl, rfl⟩⟩,
   (centerOnNode_focus_and_neighbors_amended [("A", nodeA), ("B", nodeB)] "A"
      [⟨"c1", "A", "B", "related"⟩] rfl).2 "B" (by decide) (by decide) rfl
     ⟨⟨"c1", "A", "B", "related"⟩, by simp, Or.inl ⟨rfl, rfl⟩⟩⟩

/-! ### Dangling dependency edges crash the hierarchical layout (C2) -/

/-- C2: a `"dependency"` connection whose `from` endpoint is not in the node
set makes `hierarchicalLayout` throw (`graph[conn.from]` is `undefined`, so
`.push` raises a `TypeError`), while the same input without that connection
succeeds and places node `"A"`.  This contradicts the claim that such edges
are silently ignored by every algorithm. -/
theorem hierarchical_dangling_dependency_crashes :
    hierarchicalLayout [nodeA] [⟨"c1", "B", "A", "dependency"⟩]
        optsHierDefault = none ∧
    ∃ m, hierarchicalLayout [nodeA] [] optsHierDefault = some m ∧
      (m "A").isSome :=
  ⟨rfl, ⟨_, rfl, rfl⟩⟩

/-! ### Zero-valued options select the defaults (C10) -/

theorem canonOpts_algorithm (o : LayoutOptions) :
    (canonOpts o).algorithm = o.algorithm := rfl

theorem canonOpts_spacing (o : LayoutOptions) :
    (canonOpts o).spacing = zeroToNone o.spacing := rfl

theorem canonOpts_centerX (o : LayoutOptions) :
    (canonOpts o).centerX = zeroToNone o.centerX := rfl

theorem canonOpts_centerY (o : LayoutOptions) :
    (canonOpts o).centerY = zeroToNone o.centerY := rfl

theorem canonOpts_maxIterations (o : LayoutOptions) :
    (canonOpts o).maxIterations = zeroToNoneN o.maxIterations := rfl

theorem canonOpts_attractionForce (o : LayoutOptions) :
    (canonOpts o).attractionForce = zeroToNone o.attractionForce := rfl

theorem canonOpts_repulsionForce (o : LayoutOptions) :
    (canonOpts o).repulsionForce = zeroToNone o.repulsionForce := rfl

theorem orD_zeroToNone (o : Option ℝ) (d : ℝ) :
    orD (zeroToNone o) d = orD o d := by
  cases o with
  | none => rfl
  | some v =>
    by_cases hv : v = 0
    · subst hv
      simp [zeroToNone, orD]
    · simp [zeroToNone, orD, hv]

theorem orDN_zeroToNoneN (o : Option ℕ) (d : ℕ) :
    orDN (zeroToNoneN o) d = orDN o d := by
  cases o with
  | none => rfl
  | some v =>
    by_cases hv : v = 0
    · subst hv
      simp [zeroToNoneN, orDN]
    · simp [zeroToNoneN, orDN, hv]

theorem forceDirectedLayout_canon (ns : List Node) (cs : List Connection)
    (o : LayoutOptions) :
    forceDirectedLayout ns cs (canonOpts o) = forceDirectedLayout ns cs o := by
  simp only [forceDirectedLayout, canonOpts_maxIterations,
    canonOpts_attractionForce, canonOpts_repulsionForce, orDN_zeroToNoneN,
    orD_zeroToNone]

theorem circularLayout_canon (ns : List Node) (o : LayoutOptions) :
    circularLayout ns (canonOpts o) = circularLayout ns o := by
  simp only [circularLayout, canonOpts_spacing, canonOpts_centerX,
    canonOpts_centerY, orD_zeroToNone]

theorem gridLayout_canon (ns : List Node) (o : LayoutOptions) :
    gridLayout ns (canonOpts o) = gridLayout ns o := by
  simp only [gridLayout, canonOpts_spacing, canonOpts_centerX,
    canonOpts_centerY, orD_zeroToNone]

theorem hierarchicalLayout_canon (ns : List Node) (cs : List Connection)
    (o : LayoutOptions) :
    hierarchicalLayout ns cs (canonOpts o) = hierarchicalLayout ns cs o := by
  simp only [hierarchicalLayout, canonOpts_spacing, canonOpts_centerX,
    canonOpts_centerY, orD_zeroToNone]

/-- C10: for every numeric layout option, the explicit value 0 behaves
exactly like the absent value — the engine substitutes its internal default
through the JavaScript `||` (0 is falsy).  Stated via the canonical form
that replaces every explicit 0 by the absent value, plus the two
`||`-default facts themselves. -/
theorem applyLayout_zero_options :
    (∀ (nodes : List (String × Node)) (conns : List Connection)
       (opts : LayoutOptions),
      applyLayout nodes conns (canonOpts opts) = applyLayout nodes conns opts) ∧
    (∀ d : ℝ, orD (some 0) d = orD none d) ∧
    (∀ d : ℕ, orDN (some 0) d = orDN none d) := by
  refine ⟨fun nodes conns opts => ?_, fun d => by simp [orD], fun d => rfl⟩
  rw [applyLayout, applyLayout, canonOpts_algorithm]
  by_cases h : (objValues nodes).length = 0
  · rw [if_pos h, if_pos h]
  · rw [if_neg h, if_neg h]
    cases opts.algorithm with
    | forceDirected => rw [forceDirectedLayout_canon]
    | hierarchical => rw [hierarchicalLayout_canon]
    | circular => rw [circularLayout_canon]
    | grid => rw [gridLayout_canon]

/-! ### Key-set lemmas (C1) -/

theorem circularLayout_isSome (nodes : List Node) (opts : LayoutOptions)
    (k : String) :
    ((circularLayout nodes opts) k).isSome ↔ k ∈ nodes.map Node.id := by
  rw [circularLayout]
  rw [assignIdx_isSome]
  simp [emptyMap]

theorem gridLayout_isSome (nodes : List Node) (opts : LayoutOptions)
    (k : String) :
    ((gridLayout nodes opts) k).isSome ↔ k ∈ nodes.map Node.id := by
  rw [gridLayout]
  rw [assignIdx_isSome]
  simp [emptyMap]

theorem procTargets_good (nodes : List Node) (ts : List String)
    (d : String → Option Int) (next : List (Option Node))
    (h : ∀ o ∈ next, ∀ n : Node, o = some n → n ∈ nodes) :
    ∀ o ∈ (procTargets nodes ts d next).2, ∀ n : Node, o = some n →
      n ∈ nodes := by
  induction ts generalizing d next with
  | nil => exact h
  | cons t ts ih =>
    rw [procTargets]
    split
    · exact ih d next h
    · rename_i v _
      by_cases hz : v - 1 = 0
      · rw [if_pos hz]
        refine ih _ _ ?_
        intro o ho n hon
        rcases List.mem_append.mp ho with ho' | ho'
        · exact h o ho' n hon
        · have : o = nodes.find? (fun n => n.id = t) := by simpa using ho'
          subst this
          exact List.mem_of_find?_eq_some hon
      · rw [if_neg hz]
        exact ih _ next h

theorem procLevel_good (nodes : List Node)
    (graph : String → Option (List String)) (cur : List (Option Node))
    (d : String → Option Int) (next : List (Option Node))
    (d' : String → Option Int) (next' : List (Option Node))
    (h : ∀ o ∈ next, ∀ n : Node, o = some n → n ∈ nodes)
    (hres : procLevel nodes graph cur d next = some (d', next')) :
    ∀ o ∈ next', ∀ n : Node, o = some n → n ∈ nodes := by
  induction cur generalizing d next with
  | nil =>
    rw [procLevel] at hres
    obtain ⟨-, rfl⟩ := Prod.mk.injEq .. ▸ (Option.some.inj hres)
    exact h
  | cons o rest ih =>
    cases o with
    | none => exact absurd hres (by rw [procLevel]; simp)
    | some n =>
      rw [procLevel] at hres
      cases hg : graph n.id with
      | none => rw [hg] at hres; exact absurd hres (by simp)
      | some ts =>
        rw [hg] at hres
        exact ih _ _ (procTargets_good nodes ts d next h) hres

theorem levelsLoop_good (nodes : List Node)
    (graph : String → Option (List String)) (fuel : ℕ) :
    ∀ (d : String → Option Int) (current : List (Option Node))
      (acc : List (List (Option Node)))
      (levels : List (List (Option Node))),
      (∀ o ∈ current, ∀ n : Node, o = some n → n ∈ nodes) →
      (∀ lvl ∈ acc, ∀ o ∈ lvl, ∀ n : Node, o = some n → n ∈ nodes) →
      levelsLoop nodes graph fuel d current acc = some levels →
      ∀ lvl ∈ levels, ∀ o ∈ lvl, ∀ n : Node, o = some n → n ∈ nodes := by
  induction fuel with
  | zero =>
    intro d current acc levels hcur hacc hres
    rw [levelsLoop] at hres
    by_cases hemp : current.isEmpty
    · rw [if_pos hemp] at hres
      obtain rfl := Option.some.inj hres
      exact hacc
    · rw [if_neg hemp] at hres
      exact absurd hres (by simp)
  | succ f ih =>
    intro d current acc levels hcur hacc hres
    rw [levelsLoop] at hres
    by_cases hemp : current.isEmpty
    · rw [if_pos hemp] at hres
      obtain rfl := Option.some.inj hres
      exact hacc
    · rw [if_neg hemp] at hres
      cases hpl : procLevel nodes graph current d [] with
      | none => rw [hpl] at hres; exact absurd hres (by simp)
      | some dn =>
        rw [hpl] at hres
        obtain ⟨d', next⟩ := dn
        refine ih d' next (acc ++ [current]) levels
          (procLevel_good nodes graph current d [] d' next (by simp) hpl)
          ?_ hres
        intro lvl hlvl
        rcases List.mem_append.mp hlvl with h' | h'
        · exact hacc lvl h'
        · have : lvl = current := by simpa using h'
          subst this
          exact hcur

theorem assignLevel_domain (spacing startX cY : ℝ) (li : ℕ)
    (lvl : List (Option Node)) :
    ∀ (ni : ℕ) (pos pos' : String → Option Position) (k : String),
      assignLevel spacing startX cY li lvl ni pos = some pos' →
      (pos' k).isSome → (pos k).isSome ∨ ∃ n : Node, some n ∈ lvl ∧ n.id = k := by
  induction lvl with
  | nil =>
    intro ni pos pos' k hres hk
    rw [assignLevel] at hres
    obtain rfl := Option.some.inj hres
    exact Or.inl hk
  | cons o rest ih =>
    intro ni pos pos' k hres hk
    cases o with
    | none => exact absurd hres (by rw [assignLevel]; simp)
    | some n =>
      rw [assignLevel] at hres
      rcases ih _ _ _ k hres hk with h' | ⟨n', hn', hid⟩
      · rw [upd] at h'
        by_cases hkn : k = n.id
        · exact Or.inr ⟨n, by simp, hkn.symm⟩
        · rw [if_neg hkn] at h'
          exact Or.inl h'
      · exact Or.inr ⟨n', by simp [hn'], hid⟩

theorem assignLevels_domain (spacing cX cY : ℝ)
    (levels : List (List (Option Node))) :
    ∀ (li : ℕ) (pos pos' : String → Option Position) (k : String),
      assignLevels spacing cX cY levels li pos = some pos' →
      (pos' k).isSome →
      (pos k).isSome ∨ ∃ lvl ∈ levels, ∃ n : Node, some n ∈ lvl ∧ n.id = k := by
  induction levels with
  | nil =>
    intro li pos pos' k hres hk
    rw [assignLevels] at hres
    obtain rfl := Option.some.inj hres
    exact Or.inl hk
  | cons lvl rest ih =>
    intro li pos pos' k hres hk
    rw [assignLevels] at hres
    cases hal : assignLevel spacing (cX - ((lvl.length : ℝ) * spacing) / 2)
        cY li lvl 0 pos with
    | none => rw [hal] at hres; exact absurd hres (by simp)
    | some pos₁ =>
      rw [hal] at hres
      rcases ih _ _ _ k hres hk with h' | ⟨lvl', hlvl', hn⟩
      · rcases assignLevel_domain _ _ _ _ lvl 0 pos pos₁ k hal h' with h'' | hn
        · exact Or.inl h''
        · exact Or.inr ⟨lvl, by simp, hn⟩
      · exact Or.inr ⟨lvl', by simp [hlvl'], hn⟩

/-- Unfolding of `hierarchicalLayout` once the dependency graph has been
built successfully. -/
theorem hierarchicalLayout_eq (nodes : List Node) (conns : List Connection)
    (opts : LayoutOptions) (g : String → Option (List String))
    (d : String → Option Int)
    (hadd : addDeps conns (initGraph nodes) (initInDeg nodes) = some (g, d)) :
    hierarchicalLayout nodes conns opts =
      match levelsLoop nodes g (nodes.length + conns.length + 1) d
          ((nodes.filter (fun n => d n.id = some 0)).map some) [] with
      | none => none
      | some levels =>
        assignLevels (orD opts.spacing 200) (orD opts.centerX 0)
          (orD opts.centerY 0) levels 0 emptyMap := by
  rw [hierarchicalLayout, hadd]

/-- Helper for C1: a successful `hierarchicalLayout` never returns an entry
for an id outside the input node list. -/
theorem hierarchicalLayout_domain (nodes : List Node)
    (conns : List Connection) (opts : LayoutOptions)
    (m : String → Option Position) (k : String) (p : Position)
    (hres : hierarchicalLayout nodes conns opts = some m)
    (hk : m k = some p) : k ∈ nodes.map Node.id := by
  cases hadd : addDeps conns (initGraph nodes) (initInDeg nodes) with
  | none =>
    rw [hierarchicalLayout, hadd] at hres
    exact absurd hres (by simp)
  | some gd =>
    obtain ⟨g, d⟩ := gd
    rw [hierarchicalLayout_eq nodes conns opts g d hadd] at hres
    cases hloop : levelsLoop nodes g (nodes.length + conns.length + 1) d
        ((nodes.filter (fun n => d n.id = some 0)).map some) [] with
    | none =>
      rw [hloop] at hres
      exact absurd hres (by simp)
    | some levels =>
      rw [hloop] at hres
      have hres' : assignLevels (orD opts.spacing 200) (orD opts.centerX 0)
          (orD opts.centerY 0) levels 0 emptyMap = some m := hres
      have hgood := levelsLoop_good nodes g
        (nodes.length + conns.length + 1) d
        ((nodes.filter (fun n => d n.id = some 0)).map some) [] levels
        ?_ (by simp) hloop
      · have hsome : (m k).isSome := by rw [hk]; rfl
        rcases assignLevels_domain (orD opts.spacing 200) (orD opts.centerX 0)
          (orD opts.centerY 0) levels 0 emptyMap m k hres' hsome with h' | h'
        · exact absurd h' (by simp [emptyMap])
        · obtain ⟨lvl, hlvl, n, hn, hid⟩ := h'
          have hnn : n ∈ nodes :=
            hgood lvl hlvl (some n) hn n rfl
          exact hid ▸ List.mem_map.mpr ⟨n, hnn, rfl⟩
      · intro o ho n hon
        subst hon
        obtain ⟨n', hn', hn'eq⟩ := List.mem_map.mp ho
        obtain rfl := Option.some.inj hn'eq
        exact List.mem_of_mem_filter hn'

/-- Counterexample to C1: `centerOnNode` focused on `"A"` in a two-node
graph with no connections returns no entry for node `"B"`, although `"B"`
is in the input node set. -/
theorem centerOnNode_missing_entry :
    "B" ∈ (objValues [("A", nodeA), ("B", nodeB)]).map Node.id ∧
    centerOnNode [("A", nodeA), ("B", nodeB)] "A" [] "B" = none :=
  ⟨by simp [objValues, nodeA, nodeB], rfl⟩

/-- C1 amended: force-directed, circular and grid return an entry for
exactly the input node ids; hierarchical layout and center-on-node never
fabricate an entry for an id outside the input node set (but may omit
nodes: dependency cycles for hierarchical, nodes unreachable from the focus
for center-on-node). -/
theorem layout_keys_amended :
    (∀ (nodes : List Node) (conns : List Connection) (opts : LayoutOptions)
       (k : String),
      ((forceDirectedLayout nodes conns opts) k).isSome ↔
        k ∈ nodes.map Node.id) ∧
    (∀ (nodes : List Node) (opts : LayoutOptions) (k : String),
      ((circularLayout nodes opts) k).isSome ↔ k ∈ nodes.map Node.id) ∧
    (∀ (nodes : List Node) (opts : LayoutOptions) (k : String),
      ((gridLayout nodes opts) k).isSome ↔ k ∈ nodes.map Node.id) ∧
    (∀ (nodes : List Node) (conns : List Connection) (opts : LayoutOptions)
       (m : String → Option Position) (k : String) (p : Position),
      hierarchicalLayout nodes conns opts = some m → m k = some p →
        k ∈ nodes.map Node.id) ∧
    (∀ (nodesObj : List (String × Node)) (cid : String)
       (conns : List Connection) (k : String),
      ((centerOnNode nodesObj cid conns) k).isSome →
        (objGet nodesObj k).isSome) :=
  ⟨forceDirectedLayout_isSome, circularLayout_isSome, gridLayout_isSome,
   hierarchicalLayout_domain,
   fun nodesObj cid conns k => centerOnNode_domain nodesObj cid conns k⟩

/-- Witness for C1 (amended), at a concrete one-node instance of the
hierarchical conjunct and of the force-directed conjunct. -/
theorem layout_keys_amended_witness :
    ∃ (m : String → Option Position) (p : Position),
      hierarchicalLayout [nodeA] [] optsHierDefault = some m ∧
      m "A" = some p ∧ "A" ∈ ([nodeA] : List Node).map Node.id ∧
      (((forceDirectedLayout [nodeA] [] optsHierDefault) "A").isSome ↔
        "A" ∈ ([nodeA] : List Node).map Node.id) :=
  ⟨_, _, rfl, rfl,
   layout_keys_amended.2.2.2.1 [nodeA] [] optsHierDefault _ "A" _ rfl rfl,
   layout_keys_amended.1 [nodeA] [] optsHierDefault "A"⟩

/-! ### Counting lemmas for the hierarchical layering proof (C4) -/

theorem remCnt_nil_eq_depTo (conns : List Connection) (v : String) :
    remCnt conns [] v = depTo conns v := by
  rw [remCnt, depTo]
  congr 1
  apply List.filter_congr
  intro c _
  simp

theorem remCnt_mono (conns : List Connection) (done done' : List String)
    (h : ∀ x ∈ done, x ∈ done') (v : String) :
    remCnt conns done' v ≤ remCnt conns done v := by
  rw [remCnt, remCnt, ← List.countP_eq_length_filter,
    ← List.countP_eq_length_filter]
  apply List.countP_mono_left
  intro c _ hc
  simp only [decide_eq_true_eq] at hc ⊢
  exact ⟨hc.1, hc.2.1, fun hmem => hc.2.2 (h _ hmem)⟩

theorem remCnt_eq_zero_iff (conns : List Connection) (done : List String)
    (v : String) :
    remCnt conns done v = 0 ↔
      ∀ c ∈ conns, c.type = "dependency" → c.«to» = v → c.«from» ∈ done := by
  rw [remCnt, ← List.countP_eq_length_filter, List.countP_eq_zero]
  constructor
  · intro h c hc hdep hto
    by_contra hfrom
    exact h c hc (by simp [hdep, hto, hfrom])
  · intro h c hc
    simp only [decide_eq_true_eq, not_and]
    intro hdep hto hfrom
    exact hfrom (h c hc hdep hto)

theorem depsOf_count (conns : List Connection) (u v : String) :
    (depsOf conns u).count v = cntFromTo conns u v := by
  induction conns with
  | nil => rfl
  | cons c rest ih =>
    simp only [depsOf, cntFromTo, List.filter_cons, Bool.decide_and] at ih ⊢
    by_cases hdep : c.type = "dependency" <;>
      by_cases hfrom : c.«from» = u <;>
        by_cases hto : c.«to» = v <;>
          simp [hdep, hfrom, hto, List.count_cons, ih]

theorem remCnt_extend (conns : List Connection) (done : List String)
    (u : String) (hu : u ∉ done) (v : String) :
    remCnt conns done v = remCnt conns (done ++ [u]) v + cntFromTo conns u v := by
  induction conns with
  | nil => rfl
  | cons c rest ih =>
    simp only [remCnt, cntFromTo, List.filter_cons, Bool.decide_and,
      decide_not] at ih ⊢
    by_cases hdep : c.type = "dependency" <;>
      by_cases hto : c.«to» = v <;>
        by_cases hfrom : c.«from» = u <;>
          by_cases hdone : c.«from» ∈ done <;>
            simp [hdep, hto, hfrom, hdone, hu, ih] <;> omega

/-! ### Lemmas about the level-processing passes (C4) -/

theorem optIds_cons_some (n : Node) (l : List (Option Node)) :
    optIds (some n :: l) = n.id :: optIds l := rfl

theorem optIds_cons_none (l : List (Option Node)) :
    optIds (none :: l) = optIds l := rfl

theorem optIds_append (l₁ l₂ : List (Option Node)) :
    optIds (l₁ ++ l₂) = optIds l₁ ++ optIds l₂ := by
  rw [optIds, optIds, optIds, List.filterMap_append]

theorem optIds_mem (l : List (Option Node)) (x : String) :
    x ∈ optIds l ↔ ∃ n : Node, some n ∈ l ∧ n.id = x := by
  rw [optIds]
  simp only [List.mem_filterMap, Option.map_eq_some']
  constructor
  · rintro ⟨o, ho, n, hon, hid⟩
    exact ⟨n, hon ▸ ho, hid⟩
  · rintro ⟨n, hn, hid⟩
    exact ⟨some n, hn, n, rfl, hid⟩

theorem flatIds_append_singleton (acc : List (List (Option Node)))
    (cur : List (Option Node)) :
    flatIds (acc ++ [cur]) = flatIds acc ++ optIds cur := by
  rw [flatIds, flatIds, List.map_append, List.flatten_append]
  simp [optIds]

theorem flatIds_mem (L : List (List (Option Node))) (x : String) :
    x ∈ flatIds L ↔ ∃ lvl ∈ L, ∃ n : Node, some n ∈ lvl ∧ n.id = x := by
  rw [flatIds]
  simp only [List.mem_flatten, List.mem_map]
  constructor
  · rintro ⟨l, ⟨lvl, hlvl, rfl⟩, hx⟩
    exact ⟨lvl, hlvl, (optIds_mem lvl x).mp hx⟩
  · rintro ⟨lvl, hlvl, hn⟩
    exact ⟨optIds lvl, ⟨lvl, hlvl, rfl⟩, (optIds_mem lvl x).mpr hn⟩

theorem procTargets_val_none (nodes : List Node) (ts : List String) :
    ∀ (d : String → Option Int) (next : List (Option Node)) (v : String),
      d v = none → (procTargets nodes ts d next).1 v = none := by
  induction ts with
  | nil => intro d next v hd; exact hd
  | cons t ts ih =>
    intro d next v hd
    rw [procTargets]
    split
    · exact ih d next v hd
    · rename_i w hdt
      have hvt : v ≠ t := fun h => by rw [h, hdt] at hd; exact Option.noConfusion hd
      by_cases hz : w - 1 = 0
      · rw [if_pos hz]
        refine ih _ _ v ?_
        rw [upd, if_neg hvt]
        exact hd
      · rw [if_neg hz]
        refine ih _ _ v ?_
        rw [upd, if_neg hvt]
        exact hd

theorem procTargets_val_some (nodes : List Node) (ts : List String) :
    ∀ (d : String → Option Int) (next : List (Option Node)) (v : String)
      (k : ℤ), d v = some k →
      (procTargets nodes ts d next).1 v = some (k - (ts.count v : ℤ)) := by
  induction ts with
  | nil =>
    intro d next v k hd
    simp [procTargets, hd]
  | cons t ts ih =>
    intro d next v k hd
    rw [procTargets]
    split
    · rename_i hdt
      have hvt : v ≠ t := fun h => by rw [h, hdt] at hd; exact Option.noConfusion hd
      rw [ih d next v k hd, List.count_cons_of_ne hvt]
    · rename_i w hdt
      by_cases hvt : v = t
      · subst hvt
        have hkw : k = w := by rw [hd] at hdt; exact Option.some.inj hdt
        subst hkw
        have hupd : (upd d v (k - 1)) v = some (k - 1) := by
          rw [upd, if_pos rfl]
        by_cases hz : k - 1 = 0
        · rw [if_pos hz, ih _ _ v (k - 1) hupd, List.count_cons_self]
          congr 1
          push_cast
          ring
        · rw [if_neg hz, ih _ _ v (k - 1) hupd, List.count_cons_self]
          congr 1
          push_cast
          ring
      · have hupd : (upd d t (w - 1)) v = some k := by
          rw [upd, if_neg hvt]
          exact hd
        by_cases hz : w - 1 = 0
        · rw [if_pos hz, ih _ _ v k hupd, List.count_cons_of_ne hvt]
        · rw [if_neg hz, ih _ _ v k hupd, List.count_cons_of_ne hvt]

theorem procTargets_inv (nodes : List Node) (done cs : List String)
    (ts : List String) :
    ∀ (d : String → Option Int) (next : List (Option Node)),
      BatchInv nodes done cs d next →
      BatchInv nodes done cs (procTargets nodes ts d next).1
        (procTargets nodes ts d next).2 := by
  induction ts with
  | nil => intro d next hJ; exact hJ
  | cons t ts ih =>
    intro d next hJ
    rw [procTargets]
    split
    · exact ih d next hJ
    · rename_i w hdt
      have hJ₁ : BatchInv nodes done cs (upd d t (w - 1)) next := by
        refine ⟨?_, ?_, hJ.2.2.1, hJ.2.2.2⟩
        · intro v hv
          obtain ⟨k, hk, hdk⟩ := hJ.1 v hv
          by_cases hvt : v = t
          · subst hvt
            have : k = w := by rw [hdk] at hdt; exact Option.some.inj hdt
            subst this
            exact ⟨k - 1, by omega, by rw [upd, if_pos rfl]⟩
          · exact ⟨k, hk, by rw [upd, if_neg hvt]; exact hdk⟩
        · intro o ho n hon
          obtain ⟨hn, k, hk, hdk⟩ := hJ.2.1 o ho n hon
          by_cases hvt : n.id = t
          · have : k = w := by
              rw [hvt, hdt] at hdk
              exact (Option.some.inj hdk).symm
            subst this
            exact ⟨hn, k - 1, by omega, by rw [hvt, upd, if_pos rfl]⟩
          · exact ⟨hn, k, hk, by rw [upd, if_neg hvt]; exact hdk⟩
      by_cases hz : w - 1 = 0
      · rw [if_pos hz]
        have hw1 : w = 1 := by omega
        refine ih _ _ ⟨hJ₁.1, ?_, ?_, ?_⟩
        · intro o ho n hon
          rcases List.mem_append.mp ho with ho' | ho'
          · exact hJ₁.2.1 o ho' n hon
          · have hof : o = nodes.find? (fun n => n.id = t) := by simpa using ho'
            rw [hof] at hon
            have hn : n ∈ nodes := List.mem_of_find?_eq_some hon
            have hnt : n.id = t := by
              have := List.find?_some hon
              simpa using this
            refine ⟨hn, w - 1, by omega, ?_⟩
            rw [hnt, upd, if_pos rfl]
        · rw [optIds_append]
          cases hfind : nodes.find? (fun n => n.id = t) with
          | none =>
            simp only [hfind, optIds_cons_none]
            simpa [optIds] using hJ.2.2.1
          | some n =>
            have hnt : n.id = t := by
              have := List.find?_some hfind
              simpa using this
            simp only [hfind, optIds_cons_some]
            rw [List.nodup_append]
            refine ⟨hJ.2.2.1, by simp [optIds], ?_⟩
            intro x hx hx'
            have hxt : x = t := by
              simp only [optIds, List.filterMap_cons, Option.map_some',
                List.filterMap_nil] at hx'
              rw [hnt] at hx'
              simpa using hx'
            subst hxt
            obtain ⟨n', hn', hid'⟩ := (optIds_mem next x).mp hx
            obtain ⟨-, k, hk, hdk⟩ := hJ.2.1 (some n') hn' n' rfl
            rw [hid', hdt] at hdk
            have : k = w := (Option.some.inj hdk).symm
            omega
        · intro i hi
          rw [optIds_append] at hi
          rcases List.mem_append.mp hi with hi' | hi'
          · exact hJ.2.2.2 i hi'
          · cases hfind : nodes.find? (fun n => n.id = t) with
            | none =>
              rw [hfind] at hi'
              exact absurd hi' (by simp [optIds])
            | some n =>
              have hnt : n.id = t := by
                have := List.find?_some hfind
                simpa using this
              rw [hfind] at hi'
              have hit : i = t := by
                simp only [optIds_cons_some, hnt] at hi'
                simpa [optIds] using hi'
              subst hit
              intro hmem
              obtain ⟨k, hk, hdk⟩ := hJ.1 i hmem
              rw [hdt] at hdk
              have : k = w := (Option.some.inj hdk).symm
              omega
      · rw [if_neg hz]
        exact ih _ _ hJ₁

theorem procLevel_none_of_mem (nodes : List Node)
    (graph : String → Option (List String)) :
    ∀ (cur : List (Option Node)) (d : String → Option Int)
      (next : List (Option Node)), (none : Option Node) ∈ cur →
      procLevel nodes graph cur d next = none := by
  intro cur
  induction cur with
  | nil => intro d next h; exact absurd h (by simp)
  | cons o rest ih =>
    intro d next h
    cases o with
    | none => rfl
    | some n =>
      have hmem : (none : Option Node) ∈ rest := by
        rcases List.mem_cons.mp h with h' | h'
        · exact absurd h' (by simp)
        · exact h'
      rw [procLevel]
      cases hgn : graph n.id with
      | none => rfl
      | some ts => exact ih _ _ hmem

theorem procLevel_val (nodes : List Node) (conns : List Connection)
    (graph : String → Option (List String))
    (hg : ∀ u ∈ nodes.map Node.id, graph u = some (depsOf conns u)) :
    ∀ (cur : List (Option Node)) (done : List String)
      (d : String → Option Int) (next : List (Option Node))
      (d' : String → Option Int) (next' : List (Option Node)),
      procLevel nodes graph cur d next = some (d', next') →
      (∀ o ∈ cur, ∀ n : Node, o = some n → n ∈ nodes) →
      ((done ++ optIds cur).Nodup) →
      (∀ v ∈ nodes.map Node.id, d v = some ((remCnt conns done v : ℤ))) →
      ∀ v ∈ nodes.map Node.id,
        d' v = some ((remCnt conns (done ++ optIds cur) v : ℤ)) := by
  intro cur
  induction cur with
  | nil =>
    intro done d next d' next' hres hreal hnd hval v hv
    rw [procLevel] at hres
    have hd : d = d' := congrArg Prod.fst (Option.some.inj hres)
    rw [← hd]
    have : done ++ optIds [] = done := by simp [optIds]
    rw [this]
    exact hval v hv
  | cons o rest ih =>
    intro done d next d' next' hres hreal hnd hval v hv
    cases o with
    | none => exact absurd hres (by rw [procLevel]; simp)
    | some n =>
      have hn : n ∈ nodes := hreal (some n) (by simp) n rfl
      have hnid : n.id ∈ nodes.map Node.id := List.mem_map.mpr ⟨n, hn, rfl⟩
      rw [procLevel, hg n.id hnid] at hres
      have hres' : procLevel nodes graph rest
          (procTargets nodes (depsOf conns n.id) d next).1
          (procTargets nodes (depsOf conns n.id) d next).2 =
            some (d', next') := hres
      rw [optIds_cons_some] at hnd
      have hnotin : n.id ∉ done := by
        intro hmem
        exact absurd (by simp : n.id ∈ n.id :: optIds rest)
          (List.disjoint_of_nodup_append hnd hmem)
      have hval₁ : ∀ v' ∈ nodes.map Node.id,
          (procTargets nodes (depsOf conns n.id) d next).1 v' =
            some ((remCnt conns (done ++ [n.id]) v' : ℤ)) := by
        intro v' hv'
        rw [procTargets_val_some nodes (depsOf conns n.id) d next v'
          (remCnt conns done v') (hval v' hv'), depsOf_count]
        congr 1
        have hext := remCnt_extend conns done n.id hnotin v'
        push_cast [hext]
        ring
      have hnd₁ : ((done ++ [n.id]) ++ optIds rest).Nodup := by
        rw [← List.append_cons]
        exact hnd
      have hres₂ := ih (done ++ [n.id]) _ _ d' next' hres'
        (fun o ho nn h => hreal o (by simp [ho]) nn h) hnd₁ hval₁ v hv
      have hlist : done ++ optIds (some n :: rest) =
          (done ++ [n.id]) ++ optIds rest := by
        rw [optIds_cons_some, List.append_cons]
      rw [hlist]
      exact hres₂

theorem procLevel_inv (nodes : List Node) (done cs : List String)
    (graph : String → Option (List String)) :
    ∀ (cur : List (Option Node)) (d : String → Option Int)
      (next : List (Option Node)) (d' : String → Option Int)
      (next' : List (Option Node)),
      procLevel nodes graph cur d next = some (d', next') →
      BatchInv nodes done cs d next →
      BatchInv nodes done cs d' next' := by
  intro cur
  induction cur with
  | nil =>
    intro d next d' next' hres hJ
    rw [procLevel] at hres
    have hd : d = d' := congrArg Prod.fst (Option.some.inj hres)
    have hn : next = next' := congrArg Prod.snd (Option.some.inj hres)
    rw [← hd, ← hn]
    exact hJ
  | cons o rest ih =>
    intro d next d' next' hres hJ
    cases o with
    | none => exact absurd hres (by rw [procLevel]; simp)
    | some n =>
      rw [procLevel] at hres
      cases hgn : graph n.id with
      | none => rw [hgn] at hres; exact absurd hres (by simp)
      | some ts =>
        rw [hgn] at hres
        exact ih _ _ d' next' hres
          (procTargets_inv nodes done cs ts d next hJ)

theorem flatIds_take_subset (L : List (List (Option Node))) (j : ℕ) :
    ∀ x ∈ flatIds (L.take j), x ∈ flatIds L := by
  intro x hx
  obtain ⟨lvl, hlvl, hn⟩ := (flatIds_mem _ x).mp hx
  exact (flatIds_mem L x).mpr ⟨lvl, List.take_subset j L hlvl, hn⟩

theorem levelsLoop_spec (nodes : List Node) (conns : List Connection)
    (graph : String → Option (List String))
    (hg : ∀ u ∈ nodes.map Node.id, graph u = some (depsOf conns u))
    (fuel : ℕ) :
    ∀ (d : String → Option Int) (current : List (Option Node))
      (acc : List (List (Option Node))) (levels : List (List (Option Node))),
      levelsLoop nodes graph fuel d current acc = some levels →
      LoopInv nodes conns d current acc →
      LevelsSpec nodes conns levels := by
  induction fuel with
  | zero =>
    intro d current acc levels hres hinv
    rw [levelsLoop] at hres
    by_cases hemp : current.isEmpty
    · rw [if_pos hemp] at hres
      obtain rfl := Option.some.inj hres
      exact ⟨by simpa [optIds, List.isEmpty_iff.mp hemp] using hinv.2.1,
        hinv.2.2.2⟩
    · rw [if_neg hemp] at hres
      exact absurd hres (by simp)
  | succ f ih =>
    intro d current acc levels hres hinv
    rw [levelsLoop] at hres
    by_cases hemp : current.isEmpty
    · rw [if_pos hemp] at hres
      obtain rfl := Option.some.inj hres
      exact ⟨by simpa [optIds, List.isEmpty_iff.mp hemp] using hinv.2.1,
        hinv.2.2.2⟩
    · rw [if_neg hemp] at hres
      cases hpl : procLevel nodes graph current d [] with
      | none => rw [hpl] at hres; exact absurd hres (by simp)
      | some dn =>
        obtain ⟨d₁, next⟩ := dn
        rw [hpl] at hres
        have hres' : levelsLoop nodes graph f d₁ next (acc ++ [current]) =
            some levels := hres
        have hreal : ∀ o ∈ current, ∀ n : Node, o = some n → n ∈ nodes :=
          fun o ho n hon => (hinv.2.2.1 o ho n hon).1
        have hval₁ : ∀ v ∈ nodes.map Node.id,
            d₁ v = some ((remCnt conns (flatIds acc ++ optIds current) v : ℤ)) :=
          procLevel_val nodes conns graph hg current (flatIds acc) d [] d₁
            next hpl hreal hinv.2.1 hinv.1
        have hJ₀ : BatchInv nodes (flatIds acc) (optIds current) d [] := by
          refine ⟨?_, by simp, by simp [optIds], by simp [optIds]⟩
          intro v hvmem
          rcases List.mem_append.mp hvmem with hv | hv
          · obtain ⟨lvl, hlvl, n, hnmem, hid⟩ := (flatIds_mem acc v).mp hv
            obtain ⟨j, hj⟩ := List.mem_iff_get?.mp hlvl
            obtain ⟨hnn, hzero⟩ := hinv.2.2.2 j lvl hj (some n) hnmem n rfl
            have hvid : v ∈ nodes.map Node.id :=
              hid ▸ List.mem_map.mpr ⟨n, hnn, rfl⟩
            have hmono : remCnt conns (flatIds acc) v ≤
                remCnt conns (flatIds (acc.take j)) v :=
              remCnt_mono conns _ _ (flatIds_take_subset acc j) v
            have hz : remCnt conns (flatIds acc) v = 0 := by
              rw [hid] at hzero
              omega
            refine ⟨(remCnt conns (flatIds acc) v : ℤ), by simp [hz],
              hinv.1 v hvid⟩
          · obtain ⟨n, hnmem, hid⟩ := (optIds_mem current v).mp hv
            obtain ⟨hnn, hzero⟩ := hinv.2.2.1 (some n) hnmem n rfl
            have hvid : v ∈ nodes.map Node.id :=
              hid ▸ List.mem_map.mpr ⟨n, hnn, rfl⟩
            rw [hid] at hzero
            refine ⟨(remCnt conns (flatIds acc) v : ℤ), by simp [hzero],
              hinv.1 v hvid⟩
        have hJ₁ : BatchInv nodes (flatIds acc) (optIds current) d₁ next :=
          procLevel_inv nodes (flatIds acc) (optIds current) graph current d
            [] d₁ next hpl hJ₀
        refine ih d₁ next (acc ++ [current]) levels hres' ⟨?_, ?_, ?_, ?_⟩
        · intro v hv
          rw [hval₁ v hv, flatIds_append_singleton]
        · rw [flatIds_append_singleton, List.nodup_append]
          refine ⟨hinv.2.1, hJ₁.2.2.1, ?_⟩
          intro x hx hx'
          exact hJ₁.2.2.2 x hx' hx
        · intro o ho n hon
          obtain ⟨hnn, k, hk, hdk⟩ := hJ₁.2.1 o ho n hon
          refine ⟨hnn, ?_⟩
          have hnid : n.id ∈ nodes.map Node.id := List.mem_map.mpr ⟨n, hnn, rfl⟩
          rw [hval₁ n.id hnid] at hdk
          have hkc : (remCnt conns (flatIds acc ++ optIds current) n.id : ℤ)
              = k := Option.some.inj hdk
          rw [flatIds_append_singleton]
          omega
        · intro j lvl hj o ho n hon
          by_cases hlt : j < acc.length
          · rw [List.get?_append hlt] at hj
            obtain ⟨hnn, hz⟩ := hinv.2.2.2 j lvl hj o ho n hon
            refine ⟨hnn, ?_⟩
            rw [List.take_append_of_le_length (le_of_lt hlt)]
            exact hz
          · rw [List.get?_append_right (not_lt.mp hlt)] at hj
            have hjl : j - acc.length = 0 ∧ lvl = current := by
              cases hd2 : j - acc.length with
              | zero => exact ⟨rfl, by rw [hd2] at hj; exact (Option.some.inj hj).symm⟩
              | succ jj => rw [hd2] at hj; exact absurd hj (by simp)
            obtain ⟨hj0, rfl⟩ := hjl
            have hjeq : j = acc.length := by omega
            obtain ⟨hnn, hz⟩ := hinv.2.2.1 o ho n hon
            refine ⟨hnn, ?_⟩
            rw [hjeq, List.take_left]
            exact hz

/-! ### Characterization of the dependency-graph construction (C4) -/

theorem depsOf_cons (c : Connection) (rest : List Connection) (u : String) :
    depsOf (c :: rest) u =
      if c.type = "dependency" ∧ c.«from» = u then c.«to» :: depsOf rest u
      else depsOf rest u := by
  rw [depsOf, List.filter_cons]
  by_cases h : c.type = "dependency" ∧ c.«from» = u
  · simp [h, depsOf]
  · simp [h, depsOf]

theorem depTo_cons (c : Connection) (rest : List Connection) (v : String) :
    depTo (c :: rest) v =
      if c.type = "dependency" ∧ c.«to» = v then depTo rest v + 1
      else depTo rest v := by
  rw [depTo, List.filter_cons]
  by_cases h : c.type = "dependency" ∧ c.«to» = v
  · simp [h, depTo]
  · simp [h, depTo]

theorem initGraph_spec (nodes : List Node) (u : String) :
    initGraph nodes u = if u ∈ nodes.map Node.id then some [] else none := by
  suffices h : ∀ (g₀ : String → Option (List String)),
      (nodes.foldl (fun g n => upd g n.id []) g₀) u =
        if u ∈ nodes.map Node.id then some [] else g₀ u by
    rw [initGraph, h emptyMap]
    by_cases hu : u ∈ nodes.map Node.id
    · simp [hu]
    · simp [hu, emptyMap]
  intro g₀
  induction nodes generalizing g₀ with
  | nil => simp
  | cons n rest ih =>
    simp only [List.foldl_cons, List.map_cons, List.mem_cons]
    rw [ih]
    by_cases hu : u ∈ rest.map Node.id
    · simp [hu]
    · by_cases hun : u = n.id
      · simp [hu, hun, upd]
      · simp [hu, hun, upd]

theorem initInDeg_spec (nodes : List Node) (v : String) :
    initInDeg nodes v =
      if v ∈ nodes.map Node.id then some (0 : ℤ) else none := by
  suffices h : ∀ (d₀ : String → Option Int),
      (nodes.foldl (fun d n => upd d n.id 0) d₀) v =
        if v ∈ nodes.map Node.id then some (0 : ℤ) else d₀ v by
    rw [initInDeg, h emptyMap]
    by_cases hv : v ∈ nodes.map Node.id
    · simp [hv]
    · simp [hv, emptyMap]
  intro d₀
  induction nodes generalizing d₀ with
  | nil => simp
  | cons n rest ih =>
    simp only [List.foldl_cons, List.map_cons, List.mem_cons]
    rw [ih]
    by_cases hv : v ∈ rest.map Node.id
    · simp [hv]
    · by_cases hvn : v = n.id
      · simp [hv, hvn, upd]
      · simp [hv, hvn, upd]

theorem addDeps_spec :
    ∀ (cs : List Connection) (g : String → Option (List String))
      (d : String → Option Int) (g' : String → Option (List String))
      (d' : String → Option Int),
      addDeps cs g d = some (g', d') →
      (∀ u l, g u = some l → g' u = some (l ++ depsOf cs u)) ∧
      (∀ v k, d v = some k → d' v = some (k + (depTo cs v : ℤ))) := by
  intro cs
  induction cs with
  | nil =>
    intro g d g' d' hres
    rw [addDeps] at hres
    have hg : g = g' := congrArg Prod.fst (Option.some.inj hres)
    have hd : d = d' := congrArg Prod.snd (Option.some.inj hres)
    subst hg
    subst hd
    constructor
    · intro u l hgl
      rw [hgl]
      simp [depsOf]
    · intro v k hdk
      rw [hdk]
      simp [depTo]
  | cons c rest ih =>
    intro g d g' d' hres
    rw [addDeps] at hres
    by_cases hdep : c.type = "dependency"
    · rw [if_pos hdep] at hres
      cases hgf : g c.«from» with
      | none => rw [hgf] at hres; exact absurd hres (by simp)
      | some l₀ =>
        rw [hgf] at hres
        have hres' : addDeps rest (upd g c.«from» (l₀ ++ [c.«to»]))
            (upd d c.«to» ((d c.«to»).getD 0 + 1)) = some (g', d') := hres
        obtain ⟨ih1, ih2⟩ := ih _ _ g' d' hres'
        constructor
        · intro u l hgl
          by_cases huf : u = c.«from»
          · have hll : l = l₀ := by
              rw [huf] at hgl
              rw [hgl] at hgf
              exact Option.some.inj hgf
            subst hll
            have hupd : upd g c.«from» (l ++ [c.«to»]) u = some (l ++ [c.«to»]) := by
              rw [upd, if_pos huf]
            rw [ih1 u (l ++ [c.«to»]) hupd, depsOf_cons,
              if_pos ⟨hdep, huf.symm⟩]
            simp
          · have := ih1 u l (by rw [upd, if_neg huf]; exact hgl)
            rw [this, depsOf_cons]
            have hcond : ¬(c.type = "dependency" ∧ c.«from» = u) := by
              rintro ⟨-, hfe⟩
              exact huf hfe.symm
            rw [if_neg hcond]
        · intro v k hdk
          by_cases hvt : v = c.«to»
          · have hgetD : (d c.«to»).getD 0 = k := by
              rw [← hvt, hdk]
              rfl
            have hupd : upd d c.«to» ((d c.«to»).getD 0 + 1) v = some (k + 1) := by
              rw [upd, if_pos hvt, hgetD]
            rw [ih2 v (k + 1) hupd, depTo_cons, if_pos ⟨hdep, hvt.symm⟩]
            congr 1
            push_cast
            ring
          · have := ih2 v k (by rw [upd, if_neg hvt]; exact hdk)
            rw [this, depTo_cons]
            have hcond : ¬(c.type = "dependency" ∧ c.«to» = v) := by
              rintro ⟨-, hte⟩
              exact hvt hte.symm
            rw [if_neg hcond]
    · rw [if_neg hdep] at hres
      obtain ⟨ih1, ih2⟩ := ih _ _ g' d' hres
      constructor
      · intro u l hgl
        rw [ih1 u l hgl, depsOf_cons, if_neg (by rintro ⟨h, -⟩; exact hdep h)]
      · intro v k hdk
        rw [ih2 v k hdk, depTo_cons, if_neg (by rintro ⟨h, -⟩; exact hdep h)]

theorem hierarchical_graph_char (nodes : List Node) (conns : List Connection)
    (g : String → Option (List String)) (d : String → Option Int)
    (hadd : addDeps conns (initGraph nodes) (initInDeg nodes) = some (g, d)) :
    (∀ u ∈ nodes.map Node.id, g u = some (depsOf conns u)) ∧
    (∀ v ∈ nodes.map Node.id, d v = some ((depTo conns v : ℤ))) := by
  obtain ⟨h1, h2⟩ := addDeps_spec conns _ _ g d hadd
  constructor
  · intro u hu
    have := h1 u [] (by rw [initGraph_spec]; simp [hu])
    simpa using this
  · intro v hv
    have := h2 v 0 (by rw [initInDeg_spec]; simp [hv])
    simpa using this

theorem optIds_map_some (l : List Node) :
    optIds (l.map some) = l.map Node.id := by
  induction l with
  | nil => rfl
  | cons n rest ih =>
    simp only [List.map_cons, optIds_cons_some, ih]

theorem initial_loopInv (nodes : List Node) (conns : List Connection)
    (g : String → Option (List String)) (d : String → Option Int)
    (hnd : (nodes.map Node.id).Nodup)
    (hadd : addDeps conns (initGraph nodes) (initInDeg nodes) = some (g, d)) :
    LoopInv nodes conns d
      ((nodes.filter (fun n => d n.id = some 0)).map some) [] := by
  obtain ⟨hgc, hdc⟩ := hierarchical_graph_char nodes conns g d hadd
  have hflat : flatIds ([] : List (List (Option Node))) = [] := rfl
  refine ⟨?_, ?_, ?_, ?_⟩
  · intro v hv
    rw [hdc v hv, hflat, remCnt_nil_eq_depTo]
  · rw [hflat, List.nil_append, optIds_map_some]
    exact ((List.filter_sublist _).map Node.id).nodup hnd
  · intro o ho n hon
    obtain ⟨n', hn', hn'o⟩ := List.mem_map.mp ho
    rw [hon] at hn'o
    have heq : n = n' := (Option.some.inj hn'o).symm
    subst heq
    have hmemnodes : n ∈ nodes := List.mem_of_mem_filter hn'
    have hfilter : d n.id = some 0 := by
      have := List.of_mem_filter hn'
      simpa using this
    refine ⟨hmemnodes, ?_⟩
    have hnid : n.id ∈ nodes.map Node.id := List.mem_map.mpr ⟨n, hmemnodes, rfl⟩
    rw [hdc n.id hnid] at hfilter
    have : (depTo conns n.id : ℤ) = 0 := Option.some.inj hfilter
    rw [hflat, remCnt_nil_eq_depTo]
    omega
  · intro j lvl hj
    simp at hj

/-! ### The position pass and the final layering theorem (C4) -/

theorem assignLevel_y (spacing startX cY : ℝ) (li : ℕ) :
    ∀ (lvl : List (Option Node)) (ni : ℕ)
      (pos pos' : String → Option Position),
      assignLevel spacing startX cY li lvl ni pos = some pos' →
      ∀ v p, pos' v = some p →
        pos v = some p ∨
        ∃ n : Node, some n ∈ lvl ∧ n.id = v ∧
          p.y = cY + (li : ℝ) * spacing := by
  intro lvl
  induction lvl with
  | nil =>
    intro ni pos pos' hres v p hp
    rw [assignLevel] at hres
    obtain rfl := Option.some.inj hres
    exact Or.inl hp
  | cons o rest ih =>
    intro ni pos pos' hres v p hp
    cases o with
    | none => exact absurd hres (by rw [assignLevel]; simp)
    | some n =>
      rw [assignLevel] at hres
      rcases ih _ _ _ hres v p hp with h' | ⟨n', hn', hid, hy⟩
      · by_cases hvn : v = n.id
        · rw [upd, if_pos hvn] at h'
          refine Or.inr ⟨n, by simp, hvn.symm, ?_⟩
          rw [← Option.some.inj h']
        · rw [upd, if_neg hvn] at h'
          exact Or.inl h'
      · exact Or.inr ⟨n', by simp [hn'], hid, hy⟩

theorem assignLevels_y (spacing cX cY : ℝ) :
    ∀ (levels : List (List (Option Node))) (li : ℕ)
      (pos pos' : String → Option Position),
      assignLevels spacing cX cY levels li pos = some pos' →
      ∀ v p, pos' v = some p →
        pos v = some p ∨
        ∃ (j : ℕ) (lvl : List (Option Node)) (n : Node),
          levels.get? j = some lvl ∧ some n ∈ lvl ∧ n.id = v ∧
          p.y = cY + ((li + j : ℕ) : ℝ) * spacing := by
  intro levels
  induction levels with
  | nil =>
    intro li pos pos' hres v p hp
    rw [assignLevels] at hres
    obtain rfl := Option.some.inj hres
    exact Or.inl hp
  | cons lvl rest ih =>
    intro li pos pos' hres v p hp
    rw [assignLevels] at hres
    cases hal : assignLevel spacing (cX - ((lvl.length : ℝ) * spacing) / 2)
        cY li lvl 0 pos with
    | none => rw [hal] at hres; exact absurd hres (by simp)
    | some pos₁ =>
      rw [hal] at hres
      rcases ih (li + 1) pos₁ pos' hres v p hp with
        h' | ⟨j, lvl', n, hj, hn, hid, hy⟩
      · rcases assignLevel_y _ _ _ _ lvl 0 pos pos₁ hal v p h' with
          h'' | ⟨n, hn, hid, hy⟩
        · exact Or.inl h''
        · refine Or.inr ⟨0, lvl, n, rfl, hn, hid, ?_⟩
          rw [hy]
          norm_num
      · refine Or.inr ⟨j + 1, lvl', n, by simpa using hj, hn, hid, ?_⟩
        have harg : li + 1 + j = li + (j + 1) := by omega
        rw [hy, harg]

theorem nodup_flatten_unique :
    ∀ (L : List (List String)), L.flatten.Nodup →
      ∀ (i j : ℕ) (li lj : List String) (x : String),
        L.get? i = some li → L.get? j = some lj → x ∈ li → x ∈ lj →
        i = j := by
  intro L
  induction L with
  | nil =>
    intro _ i j li lj x hi
    simp at hi
  | cons a rest ih =>
    intro hnd i j li lj x hi hj hxi hxj
    rw [List.flatten_cons] at hnd
    obtain ⟨hna, hnr, hdisj⟩ := List.nodup_append.mp hnd
    cases i with
    | zero =>
      have hla : a = li := by simpa using hi
      subst hla
      cases j with
      | zero => rfl
      | succ j' =>
        exfalso
        have hj' : rest.get? j' = some lj := by simpa using hj
        have hljmem : lj ∈ rest := List.get?_mem hj'
        exact hdisj hxi (List.mem_flatten.mpr ⟨lj, hljmem, hxj⟩)
    | succ i' =>
      cases j with
      | zero =>
        exfalso
        have hla : a = lj := by simpa using hj
        subst hla
        have hi' : rest.get? i' = some li := by simpa using hi
        have hlimem : li ∈ rest := List.get?_mem hi'
        exact hdisj hxj (List.mem_flatten.mpr ⟨li, hlimem, hxi⟩)
      | succ j' =>
        have := ih hnr i' j' li lj x (by simpa using hi) (by simpa using hj)
          hxi hxj
        omega

theorem flatIds_level_unique (levels : List (List (Option Node)))
    (hnd : (flatIds levels).Nodup) (i j : ℕ)
    (li lj : List (Option Node)) (ni nj : Node) (x : String)
    (hi : levels.get? i = some li) (hj : levels.get? j = some lj)
    (hni : some ni ∈ li) (hnj : some nj ∈ lj)
    (hidi : ni.id = x) (hidj : nj.id = x) : i = j := by
  refine nodup_flatten_unique (levels.map optIds) ?_ i j (optIds li)
    (optIds lj) x ?_ ?_ ?_ ?_
  · rw [flatIds] at hnd
    exact hnd
  · rw [List.get?_map, hi]
    rfl
  · rw [List.get?_map, hj]
    rfl
  · exact (optIds_mem li x).mpr ⟨ni, hni, hidi⟩
  · exact (optIds_mem lj x).mpr ⟨nj, hnj, hidj⟩

theorem mem_take_get? :
    ∀ (L : List (List (Option Node))) (j : ℕ) (lvl : List (Option Node)),
      lvl ∈ L.take j → ∃ i, i < j ∧ L.get? i = some lvl := by
  intro L
  induction L with
  | nil =>
    intro j lvl h
    simp at h
  | cons a rest ih =>
    intro j lvl h
    cases j with
    | zero => simp at h
    | succ j' =>
      rw [List.take_succ_cons] at h
      rcases List.mem_cons.mp h with rfl | h'
      · exact ⟨0, Nat.succ_pos _, rfl⟩
      · obtain ⟨i, hi, hget⟩ := ih j' lvl h'
        exact ⟨i + 1, by omega, by simpa using hget⟩

/-- C4: with distinct node ids and positive effective spacing, every
successful hierarchical layout places the target of a dependency connection
strictly below its source — the returned y-coordinate of `to` is strictly
greater than that of `from` whenever both ids received positions. -/
theorem hierarchical_dependency_below (nodes : List Node)
    (conns : List Connection) (opts : LayoutOptions)
    (m : String → Option Position) (c : Connection) (pf pt : Position)
    (hnd : (nodes.map Node.id).Nodup)
    (hres : hierarchicalLayout nodes conns opts = some m)
    (hc : c ∈ conns) (hdep : c.type = "dependency")
    (hpf : m c.«from» = some pf) (hpt : m c.«to» = some pt)
    (hs : 0 < orD opts.spacing 200) :
    pf.y < pt.y := by
  cases hadd : addDeps conns (initGraph nodes) (initInDeg nodes) with
  | none =>
    rw [hierarchicalLayout, hadd] at hres
    exact absurd hres (by simp)
  | some gd =>
    obtain ⟨g, d⟩ := gd
    rw [hierarchicalLayout_eq nodes conns opts g d hadd] at hres
    cases hloop : levelsLoop nodes g (nodes.length + conns.length + 1) d
        ((nodes.filter (fun n => d n.id = some 0)).map some) [] with
    | none =>
      rw [hloop] at hres
      exact absurd hres (by simp)
    | some levels =>
      rw [hloop] at hres
      have hres' : assignLevels (orD opts.spacing 200) (orD opts.centerX 0)
          (orD opts.centerY 0) levels 0 emptyMap = some m := hres
      obtain ⟨hgc, hdc⟩ := hierarchical_graph_char nodes conns g d hadd
      have hspec : LevelsSpec nodes conns levels :=
        levelsLoop_spec nodes conns g hgc (nodes.length + conns.length + 1)
          d ((nodes.filter (fun n => d n.id = some 0)).map some) [] levels
          hloop (initial_loopInv nodes conns g d hnd hadd)
      rcases assignLevels_y _ _ _ levels 0 emptyMap m hres' c.«to» pt hpt with
        habs | ⟨jv, lvlv, nv, hjv, hnv, hidv, hyv⟩
      · exact absurd habs (by simp [emptyMap])
      rcases assignLevels_y _ _ _ levels 0 emptyMap m hres' c.«from» pf hpf with
        habs | ⟨ju, lvlu, nu, hju, hnu, hidu, hyu⟩
      · exact absurd habs (by simp [emptyMap])
      obtain ⟨hnvmem, hzero⟩ := hspec.2 jv lvlv hjv (some nv) hnv nv rfl
      rw [hidv] at hzero
      have hfromin : c.«from» ∈ flatIds (levels.take jv) :=
        (remCnt_eq_zero_iff conns _ c.«to»).mp hzero c hc hdep rfl
      obtain ⟨lvl', hlvl'mem, n', hn', hid'⟩ :=
        (flatIds_mem _ c.«from»).mp hfromin
      obtain ⟨i, hij, hgeti⟩ := mem_take_get? levels jv lvl' hlvl'mem
      have hieq : i = ju := flatIds_level_unique levels hspec.1 i ju lvl'
        lvlu n' nu c.«from» hgeti hju hn' hnu hid' hidu
      have hlt : ju < jv := hieq ▸ hij
      rw [hyu, hyv]
      have hcast : ((0 + ju : ℕ) : ℝ) < ((0 + jv : ℕ) : ℝ) := by
        exact_mod_cast by omega
      have hmul : ((0 + ju : ℕ) : ℝ) * orD opts.spacing 200 <
          ((0 + jv : ℕ) : ℝ) * orD opts.spacing 200 :=
        mul_lt_mul_of_pos_right hcast hs
      linarith

/-- Witness for C4: two nodes with one dependency edge `A → B`; the layout
succeeds and places `B` strictly below `A`. -/
theorem hierarchical_dependency_below_witness :
    (([nodeA, nodeB] : List Node).map Node.id).Nodup ∧
      (⟨"c1", "A", "B", "dependency"⟩ : Connection) ∈
        [(⟨"c1", "A", "B", "dependency"⟩ : Connection)] ∧
      (0 : ℝ) < orD none 200 ∧
      ∃ (m : String → Option Position) (pf pt : Position),
        hierarchicalLayout [nodeA, nodeB] [⟨"c1", "A", "B", "dependency"⟩]
            optsHierDefault = some m ∧
        m "A" = some pf ∧ m "B" = some pt ∧ pf.y < pt.y :=
  ⟨by decide, by simp, by norm_num [orD],
   ⟨_, _, _, rfl, rfl, rfl,
    hierarchical_dependency_below [nodeA, nodeB]
      [⟨"c1", "A", "B", "dependency"⟩] optsHierDefault _
      ⟨"c1", "A", "B", "dependency"⟩ _ _ (by decide) rfl (by simp) rfl rfl
      rfl (by norm_num [orD, optsHierDefault])⟩⟩

end MindFlow
